import Mathlib

/-!
# The prefix query of effdsl: embedding and verification

Source: `queries/prefixquery/prefix_query.go` (package `prefixquery`).

The package builds one Elasticsearch query fragment, a `PrefixQueryS`, from a
field, a value and a list of functional options, and serialises it with
`encoding/json`.

Embedding conventions.

* A Go `string` is an immutable sequence of bytes, not necessarily valid
  UTF-8: it is a `List (Fin 256)`. Go string literals are written `str "..."`,
  the UTF-8 bytes of the literal.
* A Go `func(*PrefixQueryS)` value is nil or a function; a call of it on a
  struct returns the updated struct or does not return (a panic, a loop):
  `PrefixQueryS → Option PrefixQueryS`. A Go function that calls it returns
  an `Option` in turn, `none` when it does not return.
* `encoding/json` and `unicode/utf8` are library code. The part of them that
  the package exercises is modelled in the namespaces `utf8` and `json`:
  `json.Marshal` is the composition of `json.toDocument` (which members are
  emitted, under which names, in which order) and `json.JSON.render` (the
  compact text, with Go's string escaping).
-/

deriving instance DecidableEq for Except

/-- One byte of a Go string. -/
abbrev Byte := Fin 256

/-- A Go `string` (or `[]byte`): a finite sequence of bytes. -/
abbrev Bytes := List Byte

namespace utf8

/-- Go `utf8.RuneError`, the replacement character U+FFFD. -/
def RuneError : Nat := 0xFFFD

/-- Go `utf8.RuneSelf`: bytes below it are single-byte runes. -/
def RuneSelf : Nat := 0x80

/-- Go `utf8.UTFMax`: the longest encoding of a rune, in bytes. -/
def UTFMax : Nat := 4

/-- Go `utf8.AppendRune` on a Unicode scalar value. -/
def AppendRune (r : Nat) : Bytes :=
  if r < 0x80 then [Fin.ofNat r]
  else if r < 0x800 then [Fin.ofNat (0xC0 + r / 64), Fin.ofNat (0x80 + r % 64)]
  else if r < 0x10000 then
    [Fin.ofNat (0xE0 + r / 4096), Fin.ofNat (0x80 + r / 64 % 64), Fin.ofNat (0x80 + r % 64)]
  else
    [Fin.ofNat (0xF0 + r / 262144), Fin.ofNat (0x80 + r / 4096 % 64),
      Fin.ofNat (0x80 + r / 64 % 64), Fin.ofNat (0x80 + r % 64)]

/-- Entry of Go's `first` table for a leading byte at or above `RuneSelf`:
the length of the sequence it starts and the accepted range of the second
byte; `none` for the bytes marked invalid (`0x80..0xC1`, `0xF5..0xFF`). -/
def first (s0 : Nat) : Option (Nat × Nat × Nat) :=
  if s0 < 0xC2 then none
  else if s0 < 0xE0 then some (2, 0x80, 0xBF)
  else if s0 = 0xE0 then some (3, 0xA0, 0xBF)
  else if s0 = 0xED then some (3, 0x80, 0x9F)
  else if s0 < 0xF0 then some (3, 0x80, 0xBF)
  else if s0 = 0xF0 then some (4, 0x90, 0xBF)
  else if s0 < 0xF4 then some (4, 0x80, 0xBF)
  else if s0 = 0xF4 then some (4, 0x80, 0x8F)
  else none

/-- Whether a byte is a continuation byte, `locb ≤ b ≤ hicb`. -/
def isCont (b : Nat) : Bool := 0x80 ≤ b && b ≤ 0xBF

/-- Go `utf8.DecodeRuneInString`: the first rune of `s` and its width in
bytes; `(RuneError, 0)` on the empty string and `(RuneError, 1)` on an
invalid or truncated encoding. -/
def DecodeRuneInString (s : Bytes) : Nat × Nat :=
  match s with
  | [] => (RuneError, 0)
  | s0 :: t =>
    if s0.val < RuneSelf then (s0.val, 1)
    else
      match first s0.val with
      | none => (RuneError, 1)
      | some (sz, lo, hi) =>
        match t with
        | [] => (RuneError, 1)
        | s1 :: t1 =>
          if s1.val < lo || hi < s1.val then (RuneError, 1)
          else if sz ≤ 2 then (s0.val % 32 * 64 + s1.val % 64, 2)
          else
            match t1 with
            | [] => (RuneError, 1)
            | s2 :: t2 =>
              if !isCont s2.val then (RuneError, 1)
              else if sz ≤ 3 then
                (s0.val % 16 * 4096 + s1.val % 64 * 64 + s2.val % 64, 3)
              else
                match t2 with
                | [] => (RuneError, 1)
                | s3 :: _ =>
                  if !isCont s3.val then (RuneError, 1)
                  else
                    (s0.val % 8 * 262144 + s1.val % 64 * 4096 + s2.val % 64 * 64
                      + s3.val % 64, 4)

/-- Go `utf8.ValidString`, as a loop over `DecodeRuneInString`: no
position of the string decodes to an error of width one. Every round
consumes at least one byte. -/
def validLoop : Nat → Bytes → Bool
  | 0, s => s.isEmpty
  | _ + 1, [] => true
  | fuel + 1, b :: rest =>
    if (DecodeRuneInString (b :: rest)).1 = RuneError ∧ (DecodeRuneInString (b :: rest)).2 = 1 then
      false
    else validLoop fuel ((b :: rest).drop (DecodeRuneInString (b :: rest)).2)

/-- Go `utf8.ValidString`: whether the string is well-formed UTF-8, from a
fuel that the loop does not exhaust. -/
def ValidString (s : Bytes) : Bool := validLoop s.length s

end utf8

/-- The bytes of a Go string literal: the UTF-8 encoding of its characters. -/
def str (s : String) : Bytes := s.data.flatMap (fun c => utf8.AppendRune c.toNat)

namespace json

/-- Go `htmlSafeSet`: the ASCII bytes that `Marshal` copies into a JSON
string unchanged: everything from the space to `0x7F` but the double quote,
the ampersand, the angle brackets and the backslash. -/
def htmlSafeSet (b : Nat) : Bool :=
  0x20 ≤ b && b < 0x80 && b != 0x22 && b != 0x26 && b != 0x3C && b != 0x3E && b != 0x5C

/-- Go `hex`: the lower-case hexadecimal digit of a value below 16. -/
def hex (n : Nat) : Byte :=
  if n < 10 then Fin.ofNat (0x30 + n) else Fin.ofNat (0x61 + (n - 10))

/-- What `appendString` writes for an ASCII byte outside `htmlSafeSet`
(as of Go 1.22; earlier releases write the backspace and the form feed as
`\u0008` and `\u000c`). -/
def escapeByte (b : Byte) : Bytes :=
  if b.val = 0x5C || b.val = 0x22 then [0x5C, b]
  else if b.val = 0x08 then str "\\b"
  else if b.val = 0x0C then str "\\f"
  else if b.val = 0x0A then str "\\n"
  else if b.val = 0x0D then str "\\r"
  else if b.val = 0x09 then str "\\t"
  else str "\\u00" ++ [hex (b.val / 16), hex (b.val % 16)]

/-- The loop of Go `appendString` with `escapeHTML` set (as `Marshal` sets
it), on the part of the source string not yet consumed. Every round consumes
at least one byte, so a fuel equal to the length of the string is never
exhausted. -/
def appendStringLoop : Nat → Bytes → Bytes
  | 0, _ => []
  | _ + 1, [] => []
  | fuel + 1, b :: rest =>
    if b.val < utf8.RuneSelf then
      (if htmlSafeSet b.val then [b] else escapeByte b) ++ appendStringLoop fuel rest
    else
      let src := b :: rest
      let (c, size) := utf8.DecodeRuneInString (src.take utf8.UTFMax)
      if c = utf8.RuneError ∧ size = 1 then
        str "\\ufffd" ++ appendStringLoop fuel rest
      else if c = 0x2028 ∨ c = 0x2029 then
        str "\\u202" ++ [hex (c % 16)] ++ appendStringLoop fuel (src.drop size)
      else
        src.take size ++ appendStringLoop fuel (src.drop size)

/-- Go `appendString(dst, src, true)`, the bytes appended to `dst`: the
JSON string literal for `src`, between double quotes. -/
def appendString (src : Bytes) : Bytes :=
  [0x22] ++ appendStringLoop src.length src ++ [0x22]

/-- A JSON document, as far as this package produces one: strings, booleans
and objects with their members in emission order. -/
inductive JSON where
  | string (s : Bytes)
  | bool (b : Bool)
  | object (members : List (Bytes × JSON))

/-- The compact JSON text of a document, as `encoding/json` writes it: no
whitespace, members separated by commas, names and strings through
`appendString`. -/
def JSON.render : JSON → Bytes
  | .string s => appendString s
  | .bool b => if b then str "true" else str "false"
  | .object members => [0x7B] ++ renderMembers 0 members ++ [0x7D]
where
  /-- The members of an object from the `i`-th on. -/
  renderMembers : Nat → List (Bytes × JSON) → Bytes
  | _, [] => []
  | i, (name, v) :: rest =>
    (if 0 < i then [0x2C] else []) ++ appendString name ++ [0x3A] ++ JSON.render v
      ++ renderMembers (i + 1) rest

/-- The member of an object with a given name (the first one, were there
several); `none` on a document that is not an object. -/
def JSON.get? : JSON → Bytes → Option JSON
  | .object members, name => (members.find? (fun m => m.1 == name)).map (fun m => m.2)
  | _, _ => none

/-- The names of the members of an object, in order. -/
def JSON.names : JSON → List Bytes
  | .object members => members.map (fun m => m.1)
  | _ => []

/-- Go `strings.Compare` on two strings: lexicographic order on bytes. -/
def Compare : Bytes → Bytes → Ordering
  | [], [] => .eq
  | [], _ :: _ => .lt
  | _ :: _, [] => .gt
  | a :: as, b :: bs => if a < b then .lt else if b < a then .gt else Compare as bs

/-- Go `strings.Cut(s, ",")`: the text before and after the first comma. -/
def cutComma : List Char → List Char × List Char
  | [] => ([], [])
  | c :: cs => if c = ',' then ([], cs) else ((cutComma cs).1.cons c, (cutComma cs).2)

/-- Go `parseTag`: a struct field's `json` tag split into its name and its
comma-separated options. -/
def parseTag (tag : String) : String × String :=
  (String.mk (cutComma tag.data).1, String.mk (cutComma tag.data).2)

/-- The loop of Go `tagOptions.Contains`; each round cuts at least one
character off a non-empty `s`. -/
def containsLoop : Nat → List Char → List Char → Bool
  | 0, _, _ => false
  | fuel + 1, s, optionName =>
    if s = [] then false
    else if (cutComma s).1 = optionName then true
    else containsLoop fuel (cutComma s).2 optionName

/-- Go `tagOptions.Contains`: whether the option list holds `optionName`. -/
def tagOptionsContains (o : String) (optionName : String) : Bool :=
  containsLoop o.length o.data optionName.data

/-- Go `isValidTag`, on ASCII: a non-empty name of letters, digits and the
punctuation Go lists. (Go also accepts non-ASCII letters and digits; the tags
of this package are ASCII.) -/
def isValidTag (s : String) : Bool :=
  s != "" && s.data.all (fun c => "!#$%&()*+-./:;<=>?@[]^_\x7b|\x7d~ ".data.contains c || c.isAlphanum)

/-- What `Marshal` cannot encode. -/
inductive MarshalError where
  | UnsupportedTypeError (kind : String)
deriving DecidableEq, Repr

/-- An exported struct field as reflection shows it to `Marshal`: its Go
name, the value of the `json` key of its tag, and its value. -/
structure StructField (α : Type) where
  Name : String
  Tag : String
  Value : α

/-- The Go values this package hands to `Marshal`, by kind: strings (of any
named string type without marshalling methods), booleans, maps with string
keys, structs without marshalling methods, and function values, which stand
for the kinds `Marshal` rejects. A map is given by its entries in some
order; Go leaves the iteration order of a map unspecified. -/
inductive Value where
  | string (s : Bytes)
  | bool (b : Bool)
  | map (entries : List (Bytes × Value))
  | struct (fields : List (StructField Value))
  | func

/-- Go `isEmptyValue`: what `omitempty` omits. -/
def isEmptyValue : Value → Bool
  | .string s => s.length == 0
  | .bool b => b == false
  | .map entries => entries.length == 0
  | .struct _ => false
  | .func => false

/-- The member name of a struct field: the name in its tag when that is
valid, the Go field name otherwise. -/
def fieldName (name tag : String) : Bytes :=
  if isValidTag (parseTag tag).1 then str (parseTag tag).1 else str name

/-- The first error of a list of encoded members, or all of them. -/
def collect : List (Bytes × Except MarshalError JSON) → Except MarshalError (List (Bytes × JSON))
  | [] => .ok []
  | (_, .error e) :: _ => .error e
  | (k, .ok d) :: rest =>
    match collect rest with
    | .error e => .error e
    | .ok ds => .ok ((k, d) :: ds)

/-- Map entries in the order `Marshal` writes them: sorted by key. -/
def sortEntries {α : Type} (entries : List (Bytes × α)) : List (Bytes × α) :=
  entries.insertionSort (fun a b => Compare a.1 b.1 ≠ Ordering.gt)

/-- The document `Marshal` writes for a value.
A struct becomes an object with one member per field, in declaration order,
without the fields tagged `-` and without the empty fields tagged
`omitempty`. A map becomes an object with one member per entry, sorted by
key. A function value is an error. -/
def toDocument : Value → Except MarshalError JSON
  | .string s => .ok (.string s)
  | .bool b => .ok (.bool b)
  | .func => .error (.UnsupportedTypeError "func")
  | .map entries => (collect (sortEntries (mapEntries entries))).map JSON.object
  | .struct fields => (structFields fields).map JSON.object
where
  /-- Each entry of a map with its value encoded. -/
  mapEntries : List (Bytes × Value) → List (Bytes × Except MarshalError JSON)
  | [] => []
  | (k, v) :: rest => (k, toDocument v) :: mapEntries rest
  /-- The members for the fields of a struct. -/
  structFields : List (StructField Value) → Except MarshalError (List (Bytes × JSON))
  | [] => .ok []
  | ⟨name, tag, v⟩ :: rest =>
    if tag = "-" then structFields rest
    else if tagOptionsContains (parseTag tag).2 "omitempty" && isEmptyValue v then
      structFields rest
    else
      match toDocument v with
      | .error e => .error e
      | .ok d =>
        match structFields rest with
        | .error e => .error e
        | .ok ds => .ok ((fieldName name tag, d) :: ds)

/-- Go `json.Marshal`: the compact JSON text of the document of a value. -/
def Marshal (v : Value) : Except MarshalError Bytes :=
  (toDocument v).map JSON.render

/-! ### Reading a JSON string literal back

The inverse direction, used to show that `appendString` loses nothing on
well-formed strings. -/

/-- The value of a hexadecimal digit. -/
def unhex (b : Byte) : Option Nat :=
  if 0x30 ≤ b.val ∧ b.val ≤ 0x39 then some (b.val - 0x30)
  else if 0x61 ≤ b.val ∧ b.val ≤ 0x66 then some (b.val - 0x61 + 10)
  else if 0x41 ≤ b.val ∧ b.val ≤ 0x46 then some (b.val - 0x41 + 10)
  else none

/-- Put bytes in front of the string read so far. -/
def consRead (pre : Bytes) : Option (Bytes × Bytes) → Option (Bytes × Bytes)
  | none => none
  | some (s, rest) => some (pre ++ s, rest)

/-- Reading a JSON string literal after its opening quote: the string it
stands for and what follows the closing quote. Every round reads at least one
byte, so a fuel equal to the length of the input is never exhausted. -/
def unquoteLoop : Nat → Bytes → Option (Bytes × Bytes)
  | 0, _ => none
  | _ + 1, [] => none
  | fuel + 1, b :: rest =>
    if b.val = 0x22 then some ([], rest)
    else if b.val = 0x5C then
      match rest with
      | [] => none
      | e :: r =>
        if e.val = 0x22 ∨ e.val = 0x5C ∨ e.val = 0x2F then consRead [e] (unquoteLoop fuel r)
        else if e.val = 0x62 then consRead [0x08] (unquoteLoop fuel r)
        else if e.val = 0x66 then consRead [0x0C] (unquoteLoop fuel r)
        else if e.val = 0x6E then consRead [0x0A] (unquoteLoop fuel r)
        else if e.val = 0x72 then consRead [0x0D] (unquoteLoop fuel r)
        else if e.val = 0x74 then consRead [0x09] (unquoteLoop fuel r)
        else if e.val = 0x75 then
          match r with
          | h1 :: h2 :: h3 :: h4 :: r4 =>
            match unhex h1, unhex h2, unhex h3, unhex h4 with
            | some a, some b, some c, some d =>
              consRead (utf8.AppendRune (a * 4096 + b * 256 + c * 16 + d)) (unquoteLoop fuel r4)
            | _, _, _, _ => none
          | _ => none
        else none
    else consRead [b] (unquoteLoop fuel rest)

/-- Reading a JSON string literal from its opening quote. -/
def unquote : Bytes → Option (Bytes × Bytes)
  | [] => none
  | b :: rest => if b.val = 0x22 then unquoteLoop rest.length rest else none

end json

namespace effdsl

/-- Modelled from the spec: the type `effdsl.M` of the root package, which is
not among the sources. The package writes `effdsl.M` composite literals with
string keys, one of them computed, and values of unrelated types, and the
spec calls the result a structured key-value document: `M` is taken to be a
map from strings to arbitrary values that `Marshal` encodes as any other map.
`M entries` is the map literal with these entries. -/
def M (entries : List (Bytes × json.Value)) : json.Value := .map entries

end effdsl

namespace prefixquery

/-- Go `type Rewrite string`. -/
abbrev Rewrite := Bytes

/-- Go `type PrefixQueryS struct`, a query that matches documents containing
terms that start with a specific prefix in a given field. -/
structure PrefixQueryS where
  Field : Bytes
  Value : Bytes
  Rewrite : Rewrite
  CaseInsensitive : Bool
deriving DecidableEq, Repr

/-- Go `PrefixQueryS.QueryInfo`. -/
def PrefixQueryS.QueryInfo (_pq : PrefixQueryS) : Bytes := str "Prefix query"

/-- Go `type PrefixQueryBase PrefixQueryS` and the conversion
`(PrefixQueryBase)(pq)`: the same four fields with the same tags and no
methods, as reflection shows the converted value to `Marshal`. -/
def PrefixQueryBase (pq : PrefixQueryS) : json.Value :=
  .struct [
    ⟨"Field", "-", .string pq.Field⟩,
    ⟨"Value", "value", .string pq.Value⟩,
    ⟨"Rewrite", "rewrite,omitempty", .string pq.Rewrite⟩,
    ⟨"CaseInsensitive", "case_insensitive,omitempty", .bool pq.CaseInsensitive⟩]

/-- The argument of `json.Marshal` in `MarshalJSON`:
`effdsl.M{"prefix": effdsl.M{pq.Field: (PrefixQueryBase)(pq)}}`. -/
def PrefixQueryS.marshalArg (pq : PrefixQueryS) : json.Value :=
  effdsl.M [(str "prefix", effdsl.M [(pq.Field, PrefixQueryBase pq)])]

/-- Go `PrefixQueryS.MarshalJSON`. -/
def PrefixQueryS.MarshalJSON (pq : PrefixQueryS) : Except json.MarshalError Bytes :=
  json.Marshal pq.marshalArg

/-- Go `type PrefixQueryOption func(*PrefixQueryS)`. A value of a function
type is nil or a function. Called with a pointer to a struct, the function
returns, leaving the struct updated (`some` of the updated struct), or it does
not return, because it panics or runs forever (`none`). -/
inductive PrefixQueryOption where
  | nil
  | func (body : PrefixQueryS → Option PrefixQueryS)

/-- The call `opt(&prefixQuery)`: the struct after the call, `none` when the
call does not return. Calling a nil function panics. -/
def PrefixQueryOption.call : PrefixQueryOption → PrefixQueryS → Option PrefixQueryS
  | .nil, _ => none
  | .func body, prefixQuery => body prefixQuery

/-- Go `ConstantScore`. -/
def ConstantScore : Rewrite := str "constant_score"
/-- Go `ScoringBoolean`. -/
def ScoringBoolean : Rewrite := str "scoring_boolean"
/-- Go `ConstantScoreBoolean`. -/
def ConstantScoreBoolean : Rewrite := str "constant_score_boolean"
/-- Go `TopTermsN`. -/
def TopTermsN : Rewrite := str "top_terms_N"
/-- Go `TopTermsBoostN`. -/
def TopTermsBoostN : Rewrite := str "top_terms_boost_N"
/-- Go `TopTermsBlendedFreqsN`. -/
def TopTermsBlendedFreqsN : Rewrite := str "top_terms_blended_freqs_N"

/-- Go `WithRewrite`. -/
def WithRewrite (rewrite : Rewrite) : PrefixQueryOption :=
  .func (fun params => some { params with Rewrite := rewrite })

/-- Go `WithCaseInsensitive`. -/
def WithCaseInsensitive (caseInsensitive : Bool) : PrefixQueryOption :=
  .func (fun params => some { params with CaseInsensitive := caseInsensitive })

/-- Modelled from the spec: the interface `effdsl.Query` of the root package,
which is not among the sources; the spec calls it the value produced for the
query-composition framework. An interface value is nil or holds a value of an
implementing type, and `PrefixQueryS` is the implementing type of this
package. -/
inductive Query where
  | nil
  | PrefixQueryS (pq : PrefixQueryS)
deriving DecidableEq, Repr

/-- Modelled from the spec: the struct `effdsl.QueryResult` of the root
package, which is not among the sources: the generic value-or-error wrapper,
with the two fields `Ok` and `Err` that `PrefixQuery` sets. A nil `error` is
`none`. -/
structure QueryResult where
  Ok : Query
  Err : Option String
deriving DecidableEq, Repr

/-- The loop `for _, opt := range opts { opt(&prefixQuery) }`, from the
options still to run and the current struct to the final struct; `none` when
a call of an option does not return, which ends the loop and the function
around it. -/
def rangeOpts : List PrefixQueryOption → PrefixQueryS → Option PrefixQueryS
  | [], prefixQuery => some prefixQuery
  | opt :: rest, prefixQuery =>
    match opt.call prefixQuery with
    | none => none
    | some prefixQuery => rangeOpts rest prefixQuery

/-- Go `PrefixQuery`. The composite literal sets `Field` and `Value` and
leaves `Rewrite` and `CaseInsensitive` at their zero values. The result is
`none` when the function does not return, because a call of an option does
not. -/
def PrefixQuery (field : Bytes) (value : Bytes) (opts : List PrefixQueryOption) :
    Option QueryResult :=
  let prefixQuery : PrefixQueryS :=
    { Field := field, Value := value, Rewrite := [], CaseInsensitive := false }
  match rangeOpts opts prefixQuery with
  | none => none
  | some prefixQuery => some { Ok := Query.PrefixQueryS prefixQuery, Err := none }

/-! ### Vocabulary of the specification -/

/-- The two option constructors of the package, as data. A list of them
stands for the options of a call of `PrefixQuery` in which every option is
built by `WithRewrite` or by `WithCaseInsensitive`. -/
inductive StdModifier where
  | withRewrite (rewrite : Rewrite)
  | withCaseInsensitive (caseInsensitive : Bool)
deriving DecidableEq, Repr

/-- The option a standard modifier stands for. -/
def StdModifier.option : StdModifier → PrefixQueryOption
  | .withRewrite rewrite => WithRewrite rewrite
  | .withCaseInsensitive caseInsensitive => WithCaseInsensitive caseInsensitive

/-- The argument of a `WithRewrite`. -/
def StdModifier.rewriteArg? : StdModifier → Option Rewrite
  | .withRewrite rewrite => some rewrite
  | .withCaseInsensitive _ => none

/-- The argument of a `WithCaseInsensitive`. -/
def StdModifier.caseInsensitiveArg? : StdModifier → Option Bool
  | .withRewrite _ => none
  | .withCaseInsensitive caseInsensitive => some caseInsensitive

/-- The argument of the last `WithRewrite` of a list of modifiers, the empty
string if there is none. -/
def lastRewrite (ms : List StdModifier) : Rewrite :=
  (ms.filterMap StdModifier.rewriteArg?).getLast?.getD []

/-- The argument of the last `WithCaseInsensitive` of a list of modifiers,
`false` if there is none. -/
def lastCaseInsensitive (ms : List StdModifier) : Bool :=
  (ms.filterMap StdModifier.caseInsensitiveArg?).getLast?.getD false

/-- The six rewrite modes the specification enumerates. -/
def rewriteModes : List Bytes :=
  [str "constant_score", str "scoring_boolean", str "constant_score_boolean",
    str "top_terms_N", str "top_terms_boost_N", str "top_terms_blended_freqs_N"]

/-- The member `rewrite` of the innermost object of a serialized fragment,
`doc.prefix.<field>.rewrite`, if the document has one. -/
def innerRewrite? (doc : json.JSON) (field : Bytes) : Option json.JSON :=
  ((doc.get? (str "prefix")).bind (fun d => d.get? field)).bind (fun d => d.get? (str "rewrite"))

/-- An option that returns on every struct, with the update `f`. -/
def PrefixQueryOption.returning (f : PrefixQueryS → PrefixQueryS) : PrefixQueryOption :=
  .func (fun params => some (f params))

/-- The serialization of `PrefixQuery(field, value, WithRewrite(c))` carries
the rewrite mode `s`: the call returns, without error, a fragment whose
document is `prefix` over `field` over the members `value` and `rewrite`, the
latter with the string `s`, and whose serialization is the bytes
`{"prefix":{<field>:{"value":<value>,"rewrite":"<s>"}}}`, with `s` verbatim
between the quotes. -/
def RewriteSerializesAs (field value : Bytes) (c : Rewrite) (s : String) : Prop :=
  ∃ frag : PrefixQueryS,
    PrefixQuery field value [WithRewrite c]
      = some (QueryResult.mk (Query.PrefixQueryS frag) none) ∧
    json.toDocument frag.marshalArg
      = .ok (.object [(str "prefix", .object [(field, .object
          [(str "value", .string value), (str "rewrite", .string (str s))])])]) ∧
    frag.MarshalJSON
      = .ok (str "\x7b\"prefix\":\x7b" ++ json.appendString field ++ str ":\x7b\"value\":"
          ++ json.appendString value ++ str ",\"rewrite\":\"" ++ str s
          ++ str "\"\x7d\x7d\x7d") ∧
    (json.JSON.object [(str "value", .string value), (str "rewrite", .string (str s))]).get?
      (str "rewrite") = some (.string (str s))

/-- The order in which the runtime hands the entries of a map to the
encoder. Go leaves the iteration order of a map unspecified, and it may
differ from one iteration to the next: an order is any rearrangement of the
entries. -/
structure MapOrder where
  iterate : List (Bytes × json.Value) → List (Bytes × json.Value)
  perm : ∀ entries, (iterate entries).Perm entries

/-- The body of `MarshalJSON` in state-passing form, in a run in which the
runtime iterates the two maps it builds in the order `o`: the result, and the
receiver variable `pq` when the method returns. -/
def PrefixQueryS.MarshalJSONBody (o : MapOrder) (pq : PrefixQueryS) :
    Except json.MarshalError Bytes × PrefixQueryS :=
  (json.Marshal (effdsl.M (o.iterate [(str "prefix",
      effdsl.M (o.iterate [(pq.Field, PrefixQueryBase pq)]))])), pq)

/-- Two calls `x.MarshalJSON()` in a row on a variable `x`, the runtime
iterating maps in the order `o1` during the first and `o2` during the second:
the variable after the calls and the two results. `MarshalJSON` has a value
receiver, so each call runs on a copy of `x`, and the copy is dropped when
the call returns. -/
def marshalTwice (o1 o2 : MapOrder) (x : PrefixQueryS) :
    PrefixQueryS × Except json.MarshalError Bytes × Except json.MarshalError Bytes :=
  let r1 := (PrefixQueryS.MarshalJSONBody o1 x).1
  let r2 := (PrefixQueryS.MarshalJSONBody o2 x).1
  (x, r1, r2)

end prefixquery

/-! ## Theorems -/

set_option maxRecDepth 100000

namespace json
open utf8

/-! ### The string loop never runs out of fuel -/

/-- A non-empty string decodes to a rune of width at least one. -/
theorem DecodeRuneInString_size_pos (b : Byte) (t : Bytes) :
    1 ≤ (DecodeRuneInString (b :: t)).2 := by
  unfold DecodeRuneInString
  repeat' split
  all_goals simp_all

/-- Every fuel from the length of the string on gives the same output: the
loop of `appendString` ends because the string is used up, never because the
fuel is. -/
theorem appendStringLoop_fuel (n m : Nat) (s : Bytes) (hn : s.length ≤ n)
    (hm : s.length ≤ m) : appendStringLoop n s = appendStringLoop m s := by
  induction n generalizing m s with
  | zero =>
    have : s = [] := List.length_eq_zero.mp (Nat.le_zero.mp hn)
    subst this
    cases m <;> rfl
  | succ n ih =>
    cases s with
    | nil => cases m <;> rfl
    | cons b rest =>
      cases m with
      | zero => simp at hm
      | succ m =>
        have hn1 : rest.length ≤ n := by simpa using hn
        have hm1 : rest.length ≤ m := by simpa using hm
        have hpos := DecodeRuneInString_size_pos b (rest.take 3)
        have hdrop : ∀ k, 1 ≤ k → ((b :: rest).drop k).length ≤ rest.length := by
          intro k hk
          simp only [List.length_drop, List.length_cons]; omega
        simp only [appendStringLoop]
        split
        · rw [ih m rest hn1 hm1]
        · have htake : List.take UTFMax (b :: rest) = b :: rest.take 3 := rfl
          rw [htake]
          generalize DecodeRuneInString (b :: rest.take 3) = cs at hpos
          rcases cs with ⟨c, size⟩
          simp only at hpos ⊢
          split
          · rw [ih m rest hn1 hm1]
          · split
            · rw [ih m _ (le_trans (hdrop size hpos) hn1) (le_trans (hdrop size hpos) hm1)]
            · rw [ih m _ (le_trans (hdrop size hpos) hn1) (le_trans (hdrop size hpos) hm1)]

end json

/-! ### Strings survive `appendString` when they are well-formed -/

namespace utf8

/-- Leading bytes that start no encoding. -/
theorem first_none (n : Nat) (h : n < 0xC2 ∨ 0xF5 ≤ n) : first n = none := by
  unfold first; split_ifs <;> first | rfl | omega

/-- Leading bytes of the two-byte encodings. -/
theorem first_two (n : Nat) (h : 0xC2 ≤ n ∧ n < 0xE0) : first n = some (2, 0x80, 0xBF) := by
  unfold first; split_ifs <;> first | rfl | omega

/-- Leading bytes of the three-byte encodings, with the range of the second byte. -/
theorem first_three (n : Nat) (h : 0xE0 ≤ n ∧ n < 0xF0) :
    first n = some (3, if n = 0xE0 then 0xA0 else 0x80, if n = 0xED then 0x9F else 0xBF) := by
  unfold first; split_ifs <;> first | rfl | omega

/-- Leading bytes of the four-byte encodings, with the range of the second byte. -/
theorem first_four (n : Nat) (h : 0xF0 ≤ n ∧ n < 0xF5) :
    first n = some (4, if n = 0xF0 then 0x90 else 0x80, if n = 0xF4 then 0x8F else 0xBF) := by
  unfold first; split_ifs <;> first | rfl | omega

/-- The continuation bytes. -/
theorem isCont_iff (n : Nat) : isCont n = true ↔ 0x80 ≤ n ∧ n ≤ 0xBF := by
  simp [isCont]

/-- What `DecodeRuneInString` returns on a string that starts with a byte at
or above `RuneSelf`: an error of width one, or a rune of width two, three or
four whose bytes lie in the ranges of the encoding. -/
theorem DecodeRuneInString_cases (b : Byte) (rest : Bytes) (hb : 0x80 ≤ b.val) :
    DecodeRuneInString (b :: rest) = (RuneError, 1) ∨
    (∃ s1 t, rest = s1 :: t ∧ 0xC2 ≤ b.val ∧ b.val ≤ 0xDF ∧ 0x80 ≤ s1.val ∧ s1.val ≤ 0xBF ∧
      DecodeRuneInString (b :: rest) = (b.val % 32 * 64 + s1.val % 64, 2)) ∨
    (∃ s1 s2 t, rest = s1 :: s2 :: t ∧ 0xE0 ≤ b.val ∧ b.val ≤ 0xEF ∧
      0x80 ≤ s1.val ∧ s1.val ≤ 0xBF ∧ (b.val = 0xE0 → 0xA0 ≤ s1.val) ∧
      (b.val = 0xED → s1.val ≤ 0x9F) ∧ 0x80 ≤ s2.val ∧ s2.val ≤ 0xBF ∧
      DecodeRuneInString (b :: rest)
        = (b.val % 16 * 4096 + s1.val % 64 * 64 + s2.val % 64, 3)) ∨
    (∃ s1 s2 s3 t, rest = s1 :: s2 :: s3 :: t ∧ 0xF0 ≤ b.val ∧ b.val ≤ 0xF4 ∧
      0x80 ≤ s1.val ∧ s1.val ≤ 0xBF ∧ (b.val = 0xF0 → 0x90 ≤ s1.val) ∧
      (b.val = 0xF4 → s1.val ≤ 0x8F) ∧ 0x80 ≤ s2.val ∧ s2.val ≤ 0xBF ∧
      0x80 ≤ s3.val ∧ s3.val ≤ 0xBF ∧
      DecodeRuneInString (b :: rest)
        = (b.val % 8 * 262144 + s1.val % 64 * 4096 + s2.val % 64 * 64 + s3.val % 64, 4)) := by
  have hlt : ¬ b.val < RuneSelf := by simp only [RuneSelf]; omega
  by_cases h0 : b.val < 0xC2 ∨ 0xF5 ≤ b.val
  · left
    simp only [DecodeRuneInString, hlt, if_false, first_none _ h0]
  by_cases h2 : b.val < 0xE0
  · have hf := first_two b.val ⟨by omega, h2⟩
    rcases rest with _ | ⟨s1, t1⟩
    · left; simp only [DecodeRuneInString, hlt, if_false, hf]
    · by_cases hr : s1.val < 0x80 ∨ 0xBF < s1.val
      · left
        simp [DecodeRuneInString, hlt, hf, hr]
      · right; left
        refine ⟨s1, t1, rfl, by omega, by omega, by omega, by omega, ?_⟩
        simp [DecodeRuneInString, hlt, hf, hr]
  by_cases h3 : b.val < 0xF0
  · have hf := first_three b.val ⟨by omega, h3⟩
    rcases rest with _ | ⟨s1, t1⟩
    · left; simp only [DecodeRuneInString, hlt, if_false, hf]
    · by_cases hr : s1.val < (if b.val = 0xE0 then 0xA0 else 0x80) ∨
          (if b.val = 0xED then 0x9F else 0xBF) < s1.val
      · left
        simp [DecodeRuneInString, hlt, hf, hr]
      · rcases t1 with _ | ⟨s2, t2⟩
        · left; simp [DecodeRuneInString, hlt, hf, hr]
        · by_cases hc2 : isCont s2.val = true
          · right; right; left
            have hc2r := (isCont_iff _).mp hc2
            refine ⟨s1, s2, t2, rfl, by omega, by omega, ?_, ?_, ?_, ?_, hc2r.1, hc2r.2, ?_⟩
            · split_ifs at hr <;> omega
            · split_ifs at hr <;> omega
            · intro h; split_ifs at hr <;> omega
            · intro h; split_ifs at hr <;> omega
            · simp [DecodeRuneInString, hlt, hf, hr, hc2]
          · left
            simp [DecodeRuneInString, hlt, hf, hr, hc2]
  · have hf := first_four b.val ⟨by omega, by omega⟩
    rcases rest with _ | ⟨s1, t1⟩
    · left; simp only [DecodeRuneInString, hlt, if_false, hf]
    · by_cases hr : s1.val < (if b.val = 0xF0 then 0x90 else 0x80) ∨
          (if b.val = 0xF4 then 0x8F else 0xBF) < s1.val
      · left
        simp [DecodeRuneInString, hlt, hf, hr]
      · rcases t1 with _ | ⟨s2, t2⟩
        · left; simp [DecodeRuneInString, hlt, hf, hr]
        · by_cases hc2 : isCont s2.val = true
          · rcases t2 with _ | ⟨s3, t3⟩
            · left; simp [DecodeRuneInString, hlt, hf, hr, hc2]
            · by_cases hc3 : isCont s3.val = true
              · right; right; right
                have hc2r := (isCont_iff _).mp hc2
                have hc3r := (isCont_iff _).mp hc3
                refine ⟨s1, s2, s3, t3, rfl, by omega, by omega, ?_, ?_, ?_, ?_, hc2r.1, hc2r.2,
                  hc3r.1, hc3r.2, ?_⟩
                · split_ifs at hr <;> omega
                · split_ifs at hr <;> omega
                · intro h; split_ifs at hr <;> omega
                · intro h; split_ifs at hr <;> omega
                · simp [DecodeRuneInString, hlt, hf, hr, hc2, hc3]
              · left
                simp [DecodeRuneInString, hlt, hf, hr, hc2, hc3]
          · left
            simp [DecodeRuneInString, hlt, hf, hr, hc2]

/-- Decoding looks at the first `UTFMax` bytes only. -/
theorem DecodeRuneInString_take (s : Bytes) :
    DecodeRuneInString (s.take UTFMax) = DecodeRuneInString s := by
  rcases s with _ | ⟨a, _ | ⟨b, _ | ⟨c, _ | ⟨d, t⟩⟩⟩⟩ <;> rfl

end utf8

namespace json
open utf8

/-- Putting bytes in front of a successful reading. -/
theorem consRead_some (pre s z : Bytes) : consRead pre (some (s, z)) = some (pre ++ s, z) := rfl

/-- A byte other than the quote and the backslash is read as itself. -/
theorem unquoteLoop_plain (k : Nat) (b : Byte) (z : Bytes) (h1 : b.val ≠ 0x22)
    (h2 : b.val ≠ 0x5C) : unquoteLoop (k + 1) (b :: z) = consRead [b] (unquoteLoop k z) := by
  simp [unquoteLoop, h1, h2]

/-- Reading a hexadecimal digit that `hex` wrote. -/
theorem unhex_hex : ∀ n : Fin 16, unhex (hex n.val) = some n.val := by
  decide

/-- An escaped ASCII byte is read back as the byte. -/
theorem unquoteLoop_escapeByte (k : Nat) (b : Byte) (z : Bytes) (hb : b.val < 0x80) :
    unquoteLoop (k + 1) (escapeByte b ++ z) = consRead [b] (unquoteLoop k z) := by
  have e1 : str "\\b" = [0x5C, 0x62] := by decide
  have e2 : str "\\f" = [0x5C, 0x66] := by decide
  have e3 : str "\\n" = [0x5C, 0x6E] := by decide
  have e4 : str "\\r" = [0x5C, 0x72] := by decide
  have e5 : str "\\t" = [0x5C, 0x74] := by decide
  have e6 : str "\\u00" = [0x5C, 0x75, 0x30, 0x30] := by decide
  have u0 : unhex 0x30 = some 0 := by decide
  have hfin : ∀ v : Nat, b.val = v → ∀ hv : v < 256, b = ⟨v, hv⟩ := fun v h _ => Fin.ext h
  have v92 : ((92 : Byte) : Nat) = 92 := rfl
  have v117 : ((117 : Byte) : Nat) = 117 := rfl
  unfold escapeByte
  split_ifs with h1 h2 h3 h4 h5 h6
  · simp only [Bool.or_eq_true, decide_eq_true_eq] at h1
    rcases h1 with h | h <;> simp [unquoteLoop, h, v92]
  · rw [e1, hfin 8 h2 (by omega)]; rfl
  · rw [e2, hfin 12 h3 (by omega)]; rfl
  · rw [e3, hfin 10 h4 (by omega)]; rfl
  · rw [e4, hfin 13 h5 (by omega)]; rfl
  · rw [e5, hfin 9 h6 (by omega)]; rfl
  · rw [e6]
    have hhi := unhex_hex ⟨b.val / 16, by omega⟩
    have hlo := unhex_hex ⟨b.val % 16, by omega⟩
    simp only at hhi hlo
    have hv : b.val / 16 * 16 + b.val % 16 = b.val := by omega
    have ha : AppendRune b.val = [b] := by
      simp only [AppendRune, hb, if_true]
      congr 1
      apply Fin.ext
      simp [Fin.ofNat]
    simp [unquoteLoop, u0, hhi, hlo, hv, ha, v92, v117]

/-- One round of the loop of `appendString` on an ASCII byte. -/
theorem appendStringLoop_ascii (n : Nat) (b : Byte) (rest : Bytes) (hb : b.val < 0x80) :
    appendStringLoop (n + 1) (b :: rest)
      = (if htmlSafeSet b.val then [b] else escapeByte b) ++ appendStringLoop n rest := by
  simp [appendStringLoop, RuneSelf, hb]

/-- One round of the loop of `appendString` on a byte at or above `RuneSelf`,
given what the string decodes to. -/
theorem appendStringLoop_multibyte (n : Nat) (b : Byte) (rest : Bytes) (hb : 0x80 ≤ b.val)
    (c size : Nat) (hdec : DecodeRuneInString (b :: rest) = (c, size)) :
    appendStringLoop (n + 1) (b :: rest)
      = if c = RuneError ∧ size = 1 then str "\\ufffd" ++ appendStringLoop n rest
        else if c = 0x2028 ∨ c = 0x2029 then
          str "\\u202" ++ [hex (c % 16)] ++ appendStringLoop n ((b :: rest).drop size)
        else (b :: rest).take size ++ appendStringLoop n ((b :: rest).drop size) := by
  have hlt : ¬ b.val < RuneSelf := by simp only [RuneSelf]; omega
  simp only [appendStringLoop, hlt, if_false, DecodeRuneInString_take, hdec]

/-- One round of the loop of `ValidString`. -/
theorem validLoop_cons (n : Nat) (b : Byte) (rest : Bytes) (c size : Nat)
    (hdec : DecodeRuneInString (b :: rest) = (c, size)) :
    validLoop (n + 1) (b :: rest)
      = if c = RuneError ∧ size = 1 then false else validLoop n ((b :: rest).drop size) := by
  simp only [validLoop, hdec]

/-- An escape is not empty. -/
theorem escapeByte_length_pos (b : Byte) : 1 ≤ (escapeByte b).length := by
  have e1 : (str "\\b").length = 2 := by decide
  have e2 : (str "\\f").length = 2 := by decide
  have e3 : (str "\\n").length = 2 := by decide
  have e4 : (str "\\r").length = 2 := by decide
  have e5 : (str "\\t").length = 2 := by decide
  unfold escapeByte
  split_ifs <;> simp [*]

/-- The escape of U+2028 is read back as its three bytes. -/
theorem unquoteLoop_u2028 (k : Nat) (z : Bytes) :
    unquoteLoop (k + 1) (str "\\u202" ++ [hex (0x2028 % 16)] ++ z)
      = consRead [0xE2, 0x80, 0xA8] (unquoteLoop k z) := by
  have e : str "\\u202" ++ [hex (0x2028 % 16)] = [0x5C, 0x75, 0x32, 0x30, 0x32, 0x38] := by decide
  rw [e]; rfl

/-- The escape of U+2029 is read back as its three bytes. -/
theorem unquoteLoop_u2029 (k : Nat) (z : Bytes) :
    unquoteLoop (k + 1) (str "\\u202" ++ [hex (0x2029 % 16)] ++ z)
      = consRead [0xE2, 0x80, 0xA9] (unquoteLoop k z) := by
  have e : str "\\u202" ++ [hex (0x2029 % 16)] = [0x5C, 0x75, 0x32, 0x30, 0x32, 0x39] := by decide
  rw [e]; rfl

/-- A rune of four bytes lies above the basic plane. -/
theorem four_byte_rune_ge (b s1 s2 s3 : Nat) (h1 : 0xF0 ≤ b) (h2 : b ≤ 0xF4) (h3 : 0x80 ≤ s1)
    (h4 : s1 ≤ 0xBF) (h5 : b = 0xF0 → 0x90 ≤ s1) :
    0x10000 ≤ b % 8 * 262144 + s1 % 64 * 4096 + s2 % 64 * 64 + s3 % 64 := by
  omega

/-- Reading back the output of the loop of `appendString` on a well-formed
string, closed by a quote, gives the string and what follows the quote. -/
theorem unquoteLoop_appendStringLoop (n : Nat) : ∀ (s z : Bytes) (k : Nat),
    s.length ≤ n → validLoop n s = true → (appendStringLoop n s).length + 1 ≤ k →
    unquoteLoop k (appendStringLoop n s ++ 0x22 :: z) = some (s, z) := by
  have v34 : ((34 : Byte) : Nat) = 34 := rfl
  induction n with
  | zero =>
    intro s z k hs hv hk
    have : s = [] := List.length_eq_zero.mp (Nat.le_zero.mp hs)
    subst this
    obtain ⟨k, rfl⟩ : ∃ k', k = k' + 1 := ⟨k - 1, by omega⟩
    simp [appendStringLoop, unquoteLoop, v34]
  | succ n ih =>
    intro s z k hs hv hk
    cases s with
    | nil =>
      obtain ⟨k, rfl⟩ : ∃ k', k = k' + 1 := ⟨k - 1, by omega⟩
      simp [appendStringLoop, unquoteLoop, v34]
    | cons b rest =>
      have hrest : rest.length ≤ n := by simpa using hs
      by_cases hb : b.val < 0x80
      · have hdec : DecodeRuneInString (b :: rest) = (b.val, 1) := by
          simp [DecodeRuneInString, RuneSelf, hb]
        rw [validLoop_cons n b rest _ _ hdec] at hv
        have hne : b.val ≠ RuneError := by simp only [RuneError]; omega
        simp only [hne, false_and, if_false, List.drop_succ_cons, List.drop_zero,
          Bool.false_eq_true] at hv
        rw [appendStringLoop_ascii n b rest hb] at hk ⊢
        by_cases hsafe : htmlSafeSet b.val = true
        · simp only [hsafe, if_true, List.length_append, List.length_singleton] at hk ⊢
          obtain ⟨k, rfl⟩ : ∃ k', k = k' + 1 := ⟨k - 1, by omega⟩
          have h22 : b.val ≠ 0x22 := by
            intro h; rw [h] at hsafe; revert hsafe; decide
          have h5c : b.val ≠ 0x5C := by
            intro h; rw [h] at hsafe; revert hsafe; decide
          rw [List.append_assoc, List.singleton_append, unquoteLoop_plain k b _ h22 h5c,
            ih rest z k hrest hv (by omega), consRead_some]
          rfl
        · have hsafe' : htmlSafeSet b.val = false := by simpa using hsafe
          simp only [hsafe', Bool.false_eq_true, if_false, List.length_append] at hk ⊢
          have hpos := escapeByte_length_pos b
          obtain ⟨k, rfl⟩ : ∃ k', k = k' + 1 := ⟨k - 1, by omega⟩
          rw [List.append_assoc, unquoteLoop_escapeByte k b _ hb,
            ih rest z k hrest hv (by omega), consRead_some]
          rfl
      · have hb' : 0x80 ≤ b.val := by omega
        rcases DecodeRuneInString_cases b rest hb' with herr |
          ⟨s1, t, rfl, h1, h2, h3, h4, hdec⟩ |
          ⟨s1, s2, t, rfl, h1, h2, h3, h4, h5, h6, h7, h8, hdec⟩ |
          ⟨s1, s2, s3, t, rfl, h1, h2, h3, h4, h5, h6, h7, h8, h9, h10, hdec⟩
        · rw [validLoop_cons n b rest _ _ herr] at hv
          simp at hv
        · rw [validLoop_cons n b _ _ _ hdec] at hv
          rw [appendStringLoop_multibyte n b _ hb' _ _ hdec] at hk ⊢
          have c1 : ¬ (b.val % 32 * 64 + s1.val % 64 = RuneError ∧ 2 = 1) := by omega
          have c2 : ¬ (b.val % 32 * 64 + s1.val % 64 = 0x2028 ∨
              b.val % 32 * 64 + s1.val % 64 = 0x2029) := by omega
          have htake : List.take 2 (b :: s1 :: t) = [b, s1] := rfl
          have hdrop : List.drop 2 (b :: s1 :: t) = t := rfl
          simp only [c1, c2, if_false, htake, hdrop, List.length_append, List.length_cons,
            List.length_nil] at hv hk ⊢
          have ht : t.length ≤ n := by simp only [List.length_cons] at hrest; omega
          obtain ⟨k, rfl⟩ : ∃ k', k = k' + 1 + 1 := ⟨k - 2, by omega⟩
          have g1 := unquoteLoop_plain (k + 1) b
            (s1 :: (appendStringLoop n t ++ 0x22 :: z)) (by omega) (by omega)
          have g2 := unquoteLoop_plain k s1 (appendStringLoop n t ++ 0x22 :: z)
            (by omega) (by omega)
          rw [List.append_assoc, List.cons_append, List.cons_append, List.nil_append, g1, g2,
            ih t z k ht hv (by omega)]
          rfl
        · rw [validLoop_cons n b _ _ _ hdec] at hv
          rw [appendStringLoop_multibyte n b _ hb' _ _ hdec] at hk ⊢
          have c1 : ¬ (b.val % 16 * 4096 + s1.val % 64 * 64 + s2.val % 64 = RuneError ∧ 3 = 1) := by
            omega
          have htake : List.take 3 (b :: s1 :: s2 :: t) = [b, s1, s2] := rfl
          have hdrop : List.drop 3 (b :: s1 :: s2 :: t) = t := rfl
          have ht : t.length ≤ n := by simp only [List.length_cons] at hrest; omega
          have hl : (str "\\u202").length = 5 := by decide
          simp only [c1, if_false, htake, hdrop] at hv hk ⊢
          by_cases hc8 : b.val % 16 * 4096 + s1.val % 64 * 64 + s2.val % 64 = 0x2028
          · have hbv : b = 0xE2 := Fin.ext (show b.val = 226 by omega)
            have hs1 : s1 = 0x80 := Fin.ext (show s1.val = 128 by omega)
            have hs2 : s2 = 0xA8 := Fin.ext (show s2.val = 168 by omega)
            subst hbv hs1 hs2
            simp only [hc8, true_or, if_true, List.length_append, hl, List.length_singleton] at hk ⊢
            obtain ⟨k, rfl⟩ : ∃ k', k = k' + 1 := ⟨k - 1, by omega⟩
            rw [List.append_assoc, unquoteLoop_u2028 k, ih t z k ht hv (by omega)]
            rfl
          by_cases hc9 : b.val % 16 * 4096 + s1.val % 64 * 64 + s2.val % 64 = 0x2029
          · have hbv : b = 0xE2 := Fin.ext (show b.val = 226 by omega)
            have hs1 : s1 = 0x80 := Fin.ext (show s1.val = 128 by omega)
            have hs2 : s2 = 0xA9 := Fin.ext (show s2.val = 169 by omega)
            subst hbv hs1 hs2
            simp only [hc9, or_true, if_true, List.length_append, hl, List.length_singleton] at hk ⊢
            obtain ⟨k, rfl⟩ : ∃ k', k = k' + 1 := ⟨k - 1, by omega⟩
            rw [List.append_assoc, unquoteLoop_u2029 k, ih t z k ht hv (by omega)]
            rfl
          · simp only [hc8, hc9, or_self, if_false, List.length_append, List.length_cons,
              List.length_nil] at hk ⊢
            obtain ⟨k, rfl⟩ : ∃ k', k = k' + 1 + 1 + 1 := ⟨k - 3, by omega⟩
            have g1 := unquoteLoop_plain (k + 1 + 1) b
              (s1 :: s2 :: (appendStringLoop n t ++ 0x22 :: z)) (by omega) (by omega)
            have g2 := unquoteLoop_plain (k + 1) s1
              (s2 :: (appendStringLoop n t ++ 0x22 :: z)) (by omega) (by omega)
            have g3 := unquoteLoop_plain k s2 (appendStringLoop n t ++ 0x22 :: z)
              (by omega) (by omega)
            rw [List.append_assoc, List.cons_append, List.cons_append, List.cons_append,
              List.nil_append, g1, g2, g3, ih t z k ht hv (by omega)]
            rfl
        · rw [validLoop_cons n b _ _ _ hdec] at hv
          rw [appendStringLoop_multibyte n b _ hb' _ _ hdec] at hk ⊢
          have hge := four_byte_rune_ge b.val s1.val s2.val s3.val h1 h2 h3 h4 h5
          have c1 : ¬ (b.val % 8 * 262144 + s1.val % 64 * 4096 + s2.val % 64 * 64 + s3.val % 64
              = RuneError ∧ 4 = 1) := fun h => absurd h.2 (by decide)
          have c2 : ¬ (b.val % 8 * 262144 + s1.val % 64 * 4096 + s2.val % 64 * 64 + s3.val % 64
              = 0x2028 ∨ b.val % 8 * 262144 + s1.val % 64 * 4096 + s2.val % 64 * 64 + s3.val % 64
              = 0x2029) := by
            generalize b.val % 8 * 262144 + s1.val % 64 * 4096 + s2.val % 64 * 64 + s3.val % 64
              = c at hge
            omega
          have htake : List.take 4 (b :: s1 :: s2 :: s3 :: t) = [b, s1, s2, s3] := rfl
          have hdrop : List.drop 4 (b :: s1 :: s2 :: s3 :: t) = t := rfl
          have ht : t.length ≤ n := by simp only [List.length_cons] at hrest; omega
          simp only [c1, c2, if_false, htake, hdrop, List.length_append, List.length_cons,
            List.length_nil] at hv hk ⊢
          obtain ⟨k, rfl⟩ : ∃ k', k = k' + 1 + 1 + 1 + 1 := ⟨k - 4, by omega⟩
          have g1 := unquoteLoop_plain (k + 1 + 1 + 1) b
            (s1 :: s2 :: s3 :: (appendStringLoop n t ++ 0x22 :: z)) (by omega) (by omega)
          have g2 := unquoteLoop_plain (k + 1 + 1) s1
            (s2 :: s3 :: (appendStringLoop n t ++ 0x22 :: z)) (by omega) (by omega)
          have g3 := unquoteLoop_plain (k + 1) s2
            (s3 :: (appendStringLoop n t ++ 0x22 :: z)) (by omega) (by omega)
          have g4 := unquoteLoop_plain k s3 (appendStringLoop n t ++ 0x22 :: z)
            (by omega) (by omega)
          rw [List.append_assoc, List.cons_append, List.cons_append, List.cons_append,
            List.cons_append, List.nil_append, g1, g2, g3, g4, ih t z k ht hv (by omega)]
          rfl

/-- On a valid UTF-8 string, reading back what `appendString` writes gives
the string, and leaves what follows it. -/
theorem unquote_appendString (s z : Bytes) (hs : ValidString s = true) :
    unquote (appendString s ++ z) = some (s, z) := by
  have v34 : ((34 : Byte) : Nat) = 34 := rfl
  have h := unquoteLoop_appendStringLoop s.length s z
    (appendStringLoop s.length s ++ 0x22 :: z).length (le_refl _) hs
    (by simp only [List.length_append, List.length_cons]; omega)
  simp only [appendString, unquote, List.cons_append, List.nil_append, List.append_assoc, v34,
    if_true]
  exact h

/-- On valid UTF-8 strings `appendString` is injective, and no literal it
writes is a proper prefix of another. -/
theorem appendString_inj (s t y z : Bytes) (hs : ValidString s = true)
    (ht : ValidString t = true) (h : appendString s ++ y = appendString t ++ z) :
    s = t ∧ y = z := by
  have h1 := unquote_appendString s y hs
  rw [h, unquote_appendString t z ht] at h1
  injection h1 with h1
  injection h1 with h2 h3
  exact ⟨h2.symm, h3.symm⟩

end json

namespace prefixquery
open json

/-! ### The struct tags of `PrefixQueryS` -/

theorem omitempty_value : tagOptionsContains (parseTag "value").2 "omitempty" = false := by
  decide

theorem omitempty_rewrite :
    tagOptionsContains (parseTag "rewrite,omitempty").2 "omitempty" = true := by
  decide

theorem omitempty_caseInsensitive :
    tagOptionsContains (parseTag "case_insensitive,omitempty").2 "omitempty" = true := by
  decide

theorem fieldName_value : fieldName "Value" "value" = str "value" := by
  decide

theorem fieldName_rewrite : fieldName "Rewrite" "rewrite,omitempty" = str "rewrite" := by
  decide

theorem fieldName_caseInsensitive :
    fieldName "CaseInsensitive" "case_insensitive,omitempty" = str "case_insensitive" := by
  decide

/-! ### The document of a fragment -/

/-- The struct inside the two maps: `Field` is skipped, `Value` is always
written, `Rewrite` and `CaseInsensitive` are written unless empty. -/
theorem toDocument_PrefixQueryBase (pq : PrefixQueryS) :
    toDocument (PrefixQueryBase pq) = .ok (.object (
      [(str "value", JSON.string pq.Value)]
        ++ (if pq.Rewrite = [] then [] else [(str "rewrite", JSON.string pq.Rewrite)])
        ++ (if pq.CaseInsensitive = true then [(str "case_insensitive", JSON.bool true)]
            else []))) := by
  rcases pq with ⟨f, v, r, c⟩
  cases c <;> by_cases hr : r = [] <;>
    simp [PrefixQueryBase, toDocument, toDocument.structFields, omitempty_value,
      omitempty_rewrite, omitempty_caseInsensitive, fieldName_value, fieldName_rewrite,
      fieldName_caseInsensitive, isEmptyValue, hr, Except.map]

/-- A map with one entry becomes an object with one member. -/
theorem toDocument_singleton_map (k : Bytes) (v : Value) (d : JSON)
    (h : toDocument v = .ok d) : toDocument (effdsl.M [(k, v)]) = .ok (.object [(k, d)]) := by
  simp [effdsl.M, toDocument, toDocument.mapEntries, sortEntries, collect, h, Except.map]

/-- The document of the argument `MarshalJSON` hands to `Marshal`. -/
theorem toDocument_marshalArg (pq : PrefixQueryS) :
    toDocument pq.marshalArg = .ok (.object [(str "prefix", .object [(pq.Field, .object (
      [(str "value", JSON.string pq.Value)]
        ++ (if pq.Rewrite = [] then [] else [(str "rewrite", JSON.string pq.Rewrite)])
        ++ (if pq.CaseInsensitive = true then [(str "case_insensitive", JSON.bool true)]
            else [])))])]) :=
  toDocument_singleton_map _ _ _
    (toDocument_singleton_map _ _ _ (toDocument_PrefixQueryBase pq))

/-- What `MarshalJSON` returns is the rendering of the document of its
argument. -/
theorem marshalJSON_of_document (pq : PrefixQueryS) (d : JSON)
    (h : toDocument pq.marshalArg = .ok d) : pq.MarshalJSON = .ok d.render := by
  simp [PrefixQueryS.MarshalJSON, Marshal, h, Except.map]

/-- The text of an object with one member. -/
theorem render_singleton (k : Bytes) (d : JSON) :
    (JSON.object [(k, d)]).render = [0x7B] ++ appendString k ++ [0x3A] ++ d.render ++ [0x7D] := by
  simp [JSON.render, JSON.render.renderMembers]

/-- The bytes `MarshalJSON` returns, written out. -/
theorem marshalJSON_bytes (pq : PrefixQueryS) :
    pq.MarshalJSON = .ok (str "\x7b\"prefix\":\x7b" ++ (appendString pq.Field
      ++ (str ":\x7b\"value\":" ++ (appendString pq.Value
      ++ ((if pq.Rewrite = [] then [] else str ",\"rewrite\":" ++ appendString pq.Rewrite)
      ++ ((if pq.CaseInsensitive = true then str ",\"case_insensitive\":true" else [])
      ++ str "\x7d\x7d\x7d")))))) := by
  have hp : appendString (str "prefix") = str "\"prefix\"" := by decide
  have hv : appendString (str "value") = str "\"value\"" := by decide
  have hr : appendString (str "rewrite") = str "\"rewrite\"" := by decide
  have hc : appendString (str "case_insensitive") = str "\"case_insensitive\"" := by decide
  have a1 : str "\x7b\"prefix\":\x7b" = [0x7B] ++ str "\"prefix\"" ++ [0x3A] ++ [0x7B] := by decide
  have a2 : str ":\x7b\"value\":" = [0x3A] ++ [0x7B] ++ str "\"value\"" ++ [0x3A] := by decide
  have a3 : str "\x7d\x7d\x7d" = [0x7D] ++ [0x7D] ++ [0x7D] := by decide
  have a4 : str ",\"rewrite\":" = [0x2C] ++ str "\"rewrite\"" ++ [0x3A] := by decide
  have a5 : str ",\"case_insensitive\":true"
      = [0x2C] ++ str "\"case_insensitive\"" ++ [0x3A] ++ str "true" := by decide
  rw [marshalJSON_of_document pq _ (toDocument_marshalArg pq), render_singleton, render_singleton]
  rcases pq with ⟨f, v, r, c⟩
  cases c <;> by_cases h : r = [] <;>
    simp [JSON.render, JSON.render.renderMembers, h, hp, hv, hr, hc, a1, a2, a3, a4, a5]

/-- C1. For every fragment, `MarshalJSON` succeeds, and the bytes it returns
are `{"prefix":{<Field>:{"value":<Value>` followed by `,"rewrite":<Rewrite>`
exactly when `Rewrite` is not empty, by `,"case_insensitive":true` exactly
when the flag is set, and by `}}}`, with `Field`, `Value` and `Rewrite` as
JSON string literals. They are the text of the document the argument encodes
to: an object with the single member `prefix`, holding an object with the
single member named by `Field`, holding an object with `value`, then
`rewrite` unless empty, then `case_insensitive` if set, and nothing else; no
member carries the field itself. Each literal of a well-formed string reads
back as that string. -/
theorem marshalJSON_wire_format (pq : PrefixQueryS) :
    ∃ inner : List (Bytes × JSON),
      pq.MarshalJSON
          = .ok (str "\x7b\"prefix\":\x7b" ++ appendString pq.Field ++ str ":\x7b\"value\":"
              ++ appendString pq.Value
              ++ (if pq.Rewrite = [] then [] else str ",\"rewrite\":" ++ appendString pq.Rewrite)
              ++ (if pq.CaseInsensitive = true then str ",\"case_insensitive\":true" else [])
              ++ str "\x7d\x7d\x7d") ∧
      toDocument pq.marshalArg
          = .ok (.object [(str "prefix", .object [(pq.Field, .object inner)])]) ∧
      pq.MarshalJSON
          = .ok (JSON.object [(str "prefix", .object [(pq.Field, .object inner)])]).render ∧
      inner = [(str "value", JSON.string pq.Value)]
        ++ (if pq.Rewrite = [] then [] else [(str "rewrite", JSON.string pq.Rewrite)])
        ++ (if pq.CaseInsensitive = true then [(str "case_insensitive", JSON.bool true)]
            else []) ∧
      (JSON.object inner).get? (str "value") = some (.string pq.Value) ∧
      (pq.Rewrite ≠ [] → (JSON.object inner).get? (str "rewrite") = some (.string pq.Rewrite)) ∧
      (pq.Rewrite = [] → (JSON.object inner).get? (str "rewrite") = none) ∧
      (pq.CaseInsensitive = true →
        (JSON.object inner).get? (str "case_insensitive") = some (.bool true)) ∧
      (pq.CaseInsensitive = false → (JSON.object inner).get? (str "case_insensitive") = none) ∧
      (∀ name ∈ (JSON.object inner).names,
        name = str "value" ∨ name = str "rewrite" ∨ name = str "case_insensitive") ∧
      (utf8.ValidString pq.Field = true →
        ∀ z, unquote (appendString pq.Field ++ z) = some (pq.Field, z)) ∧
      (utf8.ValidString pq.Value = true →
        ∀ z, unquote (appendString pq.Value ++ z) = some (pq.Value, z)) ∧
      (utf8.ValidString pq.Rewrite = true →
        ∀ z, unquote (appendString pq.Rewrite ++ z) = some (pq.Rewrite, z)) := by
  refine ⟨_, ?_, toDocument_marshalArg pq,
    marshalJSON_of_document pq _ (toDocument_marshalArg pq),
    rfl, ?_, ?_, ?_, ?_, ?_, ?_, fun h z => unquote_appendString _ z h,
    fun h z => unquote_appendString _ z h, fun h z => unquote_appendString _ z h⟩
  · rw [marshalJSON_bytes]
    simp only [List.append_assoc]
  · simp [JSON.get?]
  · intro hr
    have h1 : (str "value" == str "rewrite") = false := by decide
    simp [JSON.get?, hr, h1]
  · intro hr
    have h1 : (str "value" == str "rewrite") = false := by decide
    have h2 : (str "case_insensitive" == str "rewrite") = false := by decide
    by_cases hc : pq.CaseInsensitive = true <;> simp [JSON.get?, hr, hc, h1, h2]
  · intro hc
    have h1 : (str "value" == str "case_insensitive") = false := by decide
    have h2 : (str "rewrite" == str "case_insensitive") = false := by decide
    by_cases hr : pq.Rewrite = [] <;> simp [JSON.get?, hr, hc, h1, h2]
  · intro hc
    have h1 : (str "value" == str "case_insensitive") = false := by decide
    have h2 : (str "rewrite" == str "case_insensitive") = false := by decide
    by_cases hr : pq.Rewrite = [] <;> simp [JSON.get?, hr, hc, h1, h2]
  · intro name hn
    by_cases hr : pq.Rewrite = [] <;> by_cases hc : pq.CaseInsensitive = true <;>
      simp [JSON.names, hr, hc] at hn <;> aesop

/-! ### Construction followed by serialization -/

/-- The text of the document with the single inner member `value`. -/
theorem render_value_only (field value : Bytes) :
    (JSON.object [(str "prefix", .object [(field, .object [(str "value", .string value)])])]).render
      = str "\x7b\"prefix\":\x7b" ++ appendString field ++ str ":\x7b\"value\":"
          ++ appendString value ++ str "\x7d\x7d\x7d" := by
  have hp : appendString (str "prefix") = str "\"prefix\"" := by decide
  have hv : appendString (str "value") = str "\"value\"" := by decide
  have a1 : str "\x7b\"prefix\":\x7b" = [0x7B] ++ str "\"prefix\"" ++ [0x3A] ++ [0x7B] := by decide
  have a2 : str ":\x7b\"value\":" = [0x3A] ++ [0x7B] ++ str "\"value\"" ++ [0x3A] := by decide
  have a3 : str "\x7d\x7d\x7d" = [0x7D] ++ [0x7D] ++ [0x7D] := by decide
  rw [render_singleton, render_singleton, render_singleton]
  simp only [JSON.render, hp, hv, a1, a2, a3, List.append_assoc]

/-- The bytes for a fragment without rewrite mode and with the flag set. -/
theorem marshalJSON_bytes_caseInsensitive (field value : Bytes) :
    (PrefixQueryS.mk field value [] true).MarshalJSON
      = .ok (str "\x7b\"prefix\":\x7b" ++ appendString field ++ str ":\x7b\"value\":"
          ++ appendString value ++ str ",\"case_insensitive\":true\x7d\x7d\x7d") := by
  have e : str ",\"case_insensitive\":true" ++ str "\x7d\x7d\x7d"
      = str ",\"case_insensitive\":true\x7d\x7d\x7d" := by decide
  rw [marshalJSON_bytes]
  simp only [if_true, List.nil_append, e, List.append_assoc]

/-- The bytes for a fragment with a rewrite mode that needs no escaping and
with the flag not set. -/
theorem marshalJSON_bytes_rewrite (field value : Bytes) (s : String) (hne : str s ≠ [])
    (hq : appendString (str s) = [0x22] ++ str s ++ [0x22]) :
    (PrefixQueryS.mk field value (str s) false).MarshalJSON
      = .ok (str "\x7b\"prefix\":\x7b" ++ appendString field ++ str ":\x7b\"value\":"
          ++ appendString value ++ str ",\"rewrite\":\"" ++ str s
          ++ str "\"\x7d\x7d\x7d") := by
  have e1 : str ",\"rewrite\":\"" = str ",\"rewrite\":" ++ [0x22] := by decide
  have e2 : str "\"\x7d\x7d\x7d" = [0x22] ++ str "\x7d\x7d\x7d" := by decide
  rw [marshalJSON_bytes]
  simp only [hne, if_false, Bool.false_eq_true, hq, e1, e2, List.nil_append,
    List.append_assoc]

/-- C2. With no options, `PrefixQuery` returns a fragment whose document is
`prefix` over `field` over the single member `value`, with neither a `rewrite`
nor a `case_insensitive` member, and whose serialization is the text
`{"prefix":{<field>:{"value":<value>}}}`, field and value as JSON strings. -/
theorem prefixQuery_no_options (field value : Bytes) :
    ∃ frag : PrefixQueryS,
      PrefixQuery field value [] = some (QueryResult.mk (Query.PrefixQueryS frag) none) ∧
      toDocument frag.marshalArg
        = .ok (.object [(str "prefix", .object [(field, .object [(str "value", .string value)])])]) ∧
      frag.MarshalJSON
        = .ok (str "\x7b\"prefix\":\x7b" ++ appendString field ++ str ":\x7b\"value\":"
            ++ appendString value ++ str "\x7d\x7d\x7d") ∧
      (JSON.object [(str "value", .string value)]).get? (str "rewrite") = none ∧
      (JSON.object [(str "value", .string value)]).get? (str "case_insensitive") = none := by
  have hd := toDocument_marshalArg (PrefixQueryS.mk field value [] false)
  simp only [if_true, Bool.false_eq_true, if_false, List.append_nil] at hd
  have h1 : (str "value" == str "rewrite") = false := by decide
  have h2 : (str "value" == str "case_insensitive") = false := by decide
  refine ⟨_, rfl, hd, ?_, by simp [JSON.get?, h1], by simp [JSON.get?, h2]⟩
  show (PrefixQueryS.mk field value [] false).MarshalJSON = _
  rw [marshalJSON_of_document _ _ hd, render_value_only]

/-- C3. With `WithCaseInsensitive(true)` the serialization is
`{"prefix":{<field>:{"value":<value>,"case_insensitive":true}}}`: the
innermost object holds `case_insensitive` with `true`, after `value`. With
`WithCaseInsensitive(false)` it holds `value` alone, without a
`case_insensitive` member, and the serialization is that of the fragment built
without options. -/
theorem withCaseInsensitive_serialization (field value : Bytes) :
    (∃ frag : PrefixQueryS,
      PrefixQuery field value [WithCaseInsensitive true]
        = some (QueryResult.mk (Query.PrefixQueryS frag) none) ∧
      frag.MarshalJSON
        = .ok (str "\x7b\"prefix\":\x7b" ++ appendString field ++ str ":\x7b\"value\":"
            ++ appendString value ++ str ",\"case_insensitive\":true\x7d\x7d\x7d") ∧
      toDocument frag.marshalArg
        = .ok (.object [(str "prefix", .object [(field, .object
            [(str "value", .string value), (str "case_insensitive", .bool true)])])]) ∧
      frag.MarshalJSON
        = .ok (JSON.object [(str "prefix", .object [(field, .object
            [(str "value", .string value), (str "case_insensitive", .bool true)])])]).render ∧
      (JSON.object [(str "value", .string value), (str "case_insensitive", .bool true)]).get?
        (str "case_insensitive") = some (.bool true)) ∧
    (∃ frag plain : PrefixQueryS,
      PrefixQuery field value [WithCaseInsensitive false]
        = some (QueryResult.mk (Query.PrefixQueryS frag) none) ∧
      PrefixQuery field value [] = some (QueryResult.mk (Query.PrefixQueryS plain) none) ∧
      toDocument frag.marshalArg
        = .ok (.object [(str "prefix", .object [(field, .object [(str "value", .string value)])])]) ∧
      (JSON.object [(str "value", .string value)]).get? (str "case_insensitive") = none ∧
      frag.MarshalJSON = plain.MarshalJSON ∧
      frag.MarshalJSON
        = .ok (str "\x7b\"prefix\":\x7b" ++ appendString field ++ str ":\x7b\"value\":"
            ++ appendString value ++ str "\x7d\x7d\x7d")) := by
  have ht := toDocument_marshalArg (PrefixQueryS.mk field value [] true)
  have hf := toDocument_marshalArg (PrefixQueryS.mk field value [] false)
  simp only [if_true, Bool.false_eq_true, if_false, List.append_nil, List.singleton_append] at ht hf
  have h2 : (str "value" == str "case_insensitive") = false := by decide
  refine ⟨⟨_, rfl, marshalJSON_bytes_caseInsensitive field value, ht,
      marshalJSON_of_document _ _ ht, by simp [JSON.get?, h2]⟩,
    ⟨_, _, rfl, rfl, hf, by simp [JSON.get?, h2], rfl, ?_⟩⟩
  show (PrefixQueryS.mk field value [] false).MarshalJSON = _
  rw [marshalJSON_of_document _ _ hf, render_value_only]

/-- One rewrite constant: a non-empty string without characters to escape
is written as the `rewrite` member, verbatim between quotes. -/
theorem rewriteSerializesAs_of_plain (field value : Bytes) (c : Rewrite) (s : String)
    (hc : c = str s) (hne : str s ≠ [])
    (hq : appendString (str s) = [0x22] ++ str s ++ [0x22]) :
    RewriteSerializesAs field value c s := by
  subst hc
  have hd := toDocument_marshalArg (PrefixQueryS.mk field value (str s) false)
  simp only [hne, if_false, Bool.false_eq_true, List.append_nil, List.singleton_append] at hd
  have h1 : (str "value" == str "rewrite") = false := by decide
  exact ⟨_, rfl, hd, marshalJSON_bytes_rewrite field value s hne hq,
    by simp [JSON.get?, h1]⟩

/-- C4. For each of the six rewrite constants and every field and value, the
serialization of `PrefixQuery(field, value, WithRewrite(c))` is
`{"prefix":{<field>:{"value":<value>,"rewrite":"<mode>"}}}` with the string
the specification gives for the constant: the innermost object has the member
`rewrite` with that string; for `TopTermsN` the member is
`"rewrite":"top_terms_N"`. -/
theorem withRewrite_serialization (field value : Bytes) :
    RewriteSerializesAs field value ConstantScore "constant_score" ∧
    RewriteSerializesAs field value ScoringBoolean "scoring_boolean" ∧
    RewriteSerializesAs field value ConstantScoreBoolean "constant_score_boolean" ∧
    RewriteSerializesAs field value TopTermsN "top_terms_N" ∧
    RewriteSerializesAs field value TopTermsBoostN "top_terms_boost_N" ∧
    RewriteSerializesAs field value TopTermsBlendedFreqsN "top_terms_blended_freqs_N" :=
  ⟨rewriteSerializesAs_of_plain _ _ _ _ rfl (by decide) (by decide),
    rewriteSerializesAs_of_plain _ _ _ _ rfl (by decide) (by decide),
    rewriteSerializesAs_of_plain _ _ _ _ rfl (by decide) (by decide),
    rewriteSerializesAs_of_plain _ _ _ _ rfl (by decide) (by decide),
    rewriteSerializesAs_of_plain _ _ _ _ rfl (by decide) (by decide),
    rewriteSerializesAs_of_plain _ _ _ _ rfl (by decide) (by decide)⟩

/-- C7. The fragment built by
`PrefixQuery("username", "jo", WithCaseInsensitive(true))` serializes to
exactly the bytes `{"prefix":{"username":{"value":"jo","case_insensitive":true}}}`. -/
theorem username_jo_example :
    ∃ frag : PrefixQueryS,
      PrefixQuery (str "username") (str "jo") [WithCaseInsensitive true]
        = some (QueryResult.mk (Query.PrefixQueryS frag) none) ∧
      frag.MarshalJSON = .ok (str
        "\x7b\"prefix\":\x7b\"username\":\x7b\"value\":\"jo\",\"case_insensitive\":true\x7d\x7d\x7d") :=
  ⟨_, rfl, by decide⟩

/-! ### The options -/

/-- The last element of a non-empty list does not depend on the default. -/
theorem getLast?_cons_getD {α : Type} (a x : α) (l : List α) :
    ((a :: l).getLast?).getD x = (l.getLast?).getD a := by
  cases l with
  | nil => rfl
  | cons b t => simp [List.getLast?_cons_cons, List.getLast?_eq_getLast, List.getLast?]

/-- The loop over a list of standard modifiers, from any struct, returns:
`Field` and `Value` stay, and each of the two optional attributes ends with
the argument of the last modifier that targets it, or as it started. -/
theorem rangeOpts_stdModifiers (ms : List StdModifier) (d : PrefixQueryS) :
    rangeOpts (ms.map StdModifier.option) d =
      some (PrefixQueryS.mk d.Field d.Value
        (((ms.filterMap StdModifier.rewriteArg?).getLast?).getD d.Rewrite)
        (((ms.filterMap StdModifier.caseInsensitiveArg?).getLast?).getD d.CaseInsensitive)) := by
  induction ms generalizing d with
  | nil => rfl
  | cons m rest ih =>
    cases m with
    | withRewrite r =>
      simp only [List.map_cons, rangeOpts, ih, StdModifier.option, WithRewrite,
        PrefixQueryOption.call, List.filterMap_cons, StdModifier.rewriteArg?,
        StdModifier.caseInsensitiveArg?, getLast?_cons_getD]
    | withCaseInsensitive b =>
      simp only [List.map_cons, rangeOpts, ih, StdModifier.option, WithCaseInsensitive,
        PrefixQueryOption.call, List.filterMap_cons, StdModifier.rewriteArg?,
        StdModifier.caseInsensitiveArg?, getLast?_cons_getD]

/-- The call of `PrefixQuery` with a list of standard modifiers returns,
without error, the fragment with the last arguments. -/
theorem prefixQuery_stdModifiers (field value : Bytes) (ms : List StdModifier) :
    PrefixQuery field value (ms.map StdModifier.option)
      = some (QueryResult.mk (Query.PrefixQueryS
          (PrefixQueryS.mk field value (lastRewrite ms) (lastCaseInsensitive ms))) none) := by
  simp only [PrefixQuery, rangeOpts_stdModifiers]
  rfl

/-- C5. For every field, value and list of standard modifiers, the fragment
`PrefixQuery` returns has `Rewrite` equal to the argument of the last
`WithRewrite` of the list (empty if there is none) and `CaseInsensitive` equal
to the argument of the last `WithCaseInsensitive` (false if there is none); in
particular, of two modifiers for the same attribute the second wins. -/
theorem last_modifier_wins (field value : Bytes) (ms : List StdModifier) :
    (∃ frag : PrefixQueryS,
      PrefixQuery field value (ms.map StdModifier.option)
        = some (QueryResult.mk (Query.PrefixQueryS frag) none) ∧
      frag.Rewrite = lastRewrite ms ∧ frag.CaseInsensitive = lastCaseInsensitive ms) ∧
    (∀ r1 r2 : Rewrite, ∃ frag : PrefixQueryS,
      PrefixQuery field value [WithRewrite r1, WithRewrite r2]
        = some (QueryResult.mk (Query.PrefixQueryS frag) none) ∧
      frag.Rewrite = r2) ∧
    (∀ b1 b2 : Bool, ∃ frag : PrefixQueryS,
      PrefixQuery field value [WithCaseInsensitive b1, WithCaseInsensitive b2]
        = some (QueryResult.mk (Query.PrefixQueryS frag) none) ∧
      frag.CaseInsensitive = b2) :=
  ⟨⟨_, prefixQuery_stdModifiers field value ms, rfl, rfl⟩,
    fun _ _ => ⟨_, rfl, rfl⟩, fun _ _ => ⟨_, rfl, rfl⟩⟩

/-- The loop returns when every option returns. -/
theorem rangeOpts_returns (opts : List PrefixQueryOption)
    (h : ∀ opt ∈ opts, ∀ d : PrefixQueryS, ∃ d', opt.call d = some d') (d : PrefixQueryS) :
    ∃ d', rangeOpts opts d = some d' := by
  induction opts generalizing d with
  | nil => exact ⟨d, rfl⟩
  | cons opt rest ih =>
    obtain ⟨d1, h1⟩ := h opt (List.mem_cons_self _ _) d
    obtain ⟨d2, h2⟩ := ih (fun o ho => h o (List.mem_cons_of_mem _ ho)) d1
    exact ⟨d2, by simp only [rangeOpts, h1, h2]⟩

/-- Whatever `PrefixQuery` returns has a nil `Err` and a `PrefixQueryS` as
`Ok`. -/
theorem prefixQuery_result (field value : Bytes) (opts : List PrefixQueryOption)
    (res : QueryResult) (h : PrefixQuery field value opts = some res) :
    ∃ frag : PrefixQueryS,
      rangeOpts opts (PrefixQueryS.mk field value [] false) = some frag ∧
      res = QueryResult.mk (Query.PrefixQueryS frag) none := by
  simp only [PrefixQuery] at h
  cases hr : rangeOpts opts (PrefixQueryS.mk field value [] false) with
  | none => simp [hr] at h
  | some frag =>
    simp only [hr, Option.some.injEq] at h
    exact ⟨frag, rfl, h.symm⟩

/-- C6, as stated, fails: an option is a Go function value, and the call of
a nil option, or of one that panics, does not return; then `PrefixQuery`
returns no result at all. -/
theorem option_call_without_return :
    PrefixQuery (str "username") (str "jo") [PrefixQueryOption.nil] = none ∧
    PrefixQuery (str "username") (str "jo") [WithRewrite TopTermsN, PrefixQueryOption.nil]
      = none ∧
    PrefixQuery (str "username") (str "jo") [PrefixQueryOption.func (fun _ => none)] = none :=
  ⟨rfl, rfl, rfl⟩

/-- C6, amended. For every field, the empty one included, every value and
every list of options each of which is a function that returns on every
struct it is called with, `PrefixQuery` returns a result whose `Err` is nil
and whose `Ok` holds a `PrefixQueryS`. And whatever the options, a result
that `PrefixQuery` returns has a nil `Err` and a `PrefixQueryS` as `Ok`. -/
theorem prefixQuery_never_fails (field value : Bytes) (opts : List PrefixQueryOption)
    (h : ∀ opt ∈ opts, ∀ d : PrefixQueryS, ∃ d', opt.call d = some d') :
    (∃ frag : PrefixQueryS,
      PrefixQuery field value opts = some (QueryResult.mk (Query.PrefixQueryS frag) none)) ∧
    (∃ frag : PrefixQueryS,
      PrefixQuery [] value opts = some (QueryResult.mk (Query.PrefixQueryS frag) none)) ∧
    (∀ (others : List PrefixQueryOption) (res : QueryResult),
      PrefixQuery field value others = some res →
        res.Err = none ∧ ∃ frag : PrefixQueryS, res.Ok = Query.PrefixQueryS frag) := by
  refine ⟨?_, ?_, ?_⟩
  · obtain ⟨d', hd⟩ := rangeOpts_returns opts h (PrefixQueryS.mk field value [] false)
    exact ⟨d', by simp only [PrefixQuery, hd]⟩
  · obtain ⟨d', hd⟩ := rangeOpts_returns opts h (PrefixQueryS.mk [] value [] false)
    exact ⟨d', by simp only [PrefixQuery, hd]⟩
  · intro others res hres
    obtain ⟨frag, _, rfl⟩ := prefixQuery_result field value others res hres
    exact ⟨rfl, frag, rfl⟩

/-- The two standard options return on every struct. -/
theorem stdOptions_return :
    ∀ opt ∈ [WithRewrite TopTermsN, WithCaseInsensitive true], ∀ d : PrefixQueryS,
      ∃ d', opt.call d = some d' := by
  intro opt hopt d
  simp only [List.mem_cons, List.mem_singleton, List.not_mem_nil, or_false] at hopt
  rcases hopt with rfl | rfl <;> exact ⟨_, rfl⟩

/-- Witness for C6, amended: a call with the two standard options. -/
theorem prefixQuery_never_fails_witness :
    (∀ opt ∈ [WithRewrite TopTermsN, WithCaseInsensitive true], ∀ d : PrefixQueryS,
      ∃ d', opt.call d = some d') ∧
    ((∃ frag : PrefixQueryS,
      PrefixQuery (str "username") (str "jo") [WithRewrite TopTermsN, WithCaseInsensitive true]
        = some (QueryResult.mk (Query.PrefixQueryS frag) none)) ∧
    (∃ frag : PrefixQueryS,
      PrefixQuery [] (str "jo") [WithRewrite TopTermsN, WithCaseInsensitive true]
        = some (QueryResult.mk (Query.PrefixQueryS frag) none)) ∧
    (∀ (others : List PrefixQueryOption) (res : QueryResult),
      PrefixQuery (str "username") (str "jo") others = some res →
        res.Err = none ∧ ∃ frag : PrefixQueryS, res.Ok = Query.PrefixQueryS frag)) :=
  ⟨stdOptions_return,
    prefixQuery_never_fails (str "username") (str "jo") _ stdOptions_return⟩

/-- A map with one entry has one iteration order. -/
theorem MapOrder.iterate_singleton (o : MapOrder) (e : Bytes × Value) :
    o.iterate [e] = [e] :=
  List.perm_singleton.mp (o.perm [e])

/-- In every iteration order the body of `MarshalJSON` computes what
`MarshalJSON` computes, and leaves its receiver as it was. -/
theorem marshalJSONBody_eq (o : MapOrder) (pq : PrefixQueryS) :
    pq.MarshalJSONBody o = (pq.MarshalJSON, pq) := by
  simp only [PrefixQueryS.MarshalJSONBody, MapOrder.iterate_singleton,
    PrefixQueryS.MarshalJSON, PrefixQueryS.marshalArg]

/-- C8. Two calls of `MarshalJSON` in a row on the same fragment, whatever
the order in which the runtime iterates the maps during each, both succeed
with the same bytes, the bytes written out here; the fragment's four fields
after the calls are what they were before, and the method does not assign to
its own copy of the receiver either. -/
theorem marshalJSON_repeatable (x : PrefixQueryS) :
    ∃ out : Bytes,
      out = str "\x7b\"prefix\":\x7b" ++ appendString x.Field ++ str ":\x7b\"value\":"
              ++ appendString x.Value
              ++ (if x.Rewrite = [] then [] else str ",\"rewrite\":" ++ appendString x.Rewrite)
              ++ (if x.CaseInsensitive = true then str ",\"case_insensitive\":true" else [])
              ++ str "\x7d\x7d\x7d" ∧
      x.MarshalJSON = .ok out ∧
      (∀ o1 o2 : MapOrder,
        (marshalTwice o1 o2 x).2.1 = .ok out ∧ (marshalTwice o1 o2 x).2.2 = .ok out ∧
        (marshalTwice o1 o2 x).1.Field = x.Field ∧ (marshalTwice o1 o2 x).1.Value = x.Value ∧
        (marshalTwice o1 o2 x).1.Rewrite = x.Rewrite ∧
        (marshalTwice o1 o2 x).1.CaseInsensitive = x.CaseInsensitive) ∧
      (∀ o : MapOrder, (x.MarshalJSONBody o).2 = x) := by
  have hb : x.MarshalJSON = .ok (str "\x7b\"prefix\":\x7b" ++ appendString x.Field
      ++ str ":\x7b\"value\":" ++ appendString x.Value
      ++ (if x.Rewrite = [] then [] else str ",\"rewrite\":" ++ appendString x.Rewrite)
      ++ (if x.CaseInsensitive = true then str ",\"case_insensitive\":true" else [])
      ++ str "\x7d\x7d\x7d") := by
    rw [marshalJSON_bytes]
    simp only [List.append_assoc]
  refine ⟨_, rfl, hb, ?_, fun o => by rw [marshalJSONBody_eq]⟩
  intro o1 o2
  simp only [marshalTwice, marshalJSONBody_eq, hb, and_self]

/-- The loop keeps every property of the struct that each option keeps when
it returns. -/
theorem rangeOpts_preserves {α : Type} (g : PrefixQueryS → α) (opts : List PrefixQueryOption)
    (h : ∀ opt ∈ opts, ∀ d d' : PrefixQueryS, opt.call d = some d' → g d' = g d)
    (d d' : PrefixQueryS) (hd : rangeOpts opts d = some d') : g d' = g d := by
  induction opts generalizing d with
  | nil =>
    simp only [rangeOpts, Option.some.injEq] at hd
    rw [hd]
  | cons opt rest ih =>
    simp only [rangeOpts] at hd
    cases h1 : opt.call d with
    | none => simp [h1] at hd
    | some d1 =>
      simp only [h1] at hd
      rw [ih (fun o ho => h o (List.mem_cons_of_mem _ ho)) d1 hd,
        h opt (List.mem_cons_self _ _) d d1 h1]

/-- The two standard options return and leave `Field` and `Value` alone. -/
theorem stdModifier_keeps_field_value (m : StdModifier) (d : PrefixQueryS) :
    ∃ d', m.option.call d = some d' ∧ d'.Field = d.Field ∧ d'.Value = d.Value := by
  cases m <;> exact ⟨_, rfl, rfl, rfl⟩

/-- C9, as stated, fails: `PrefixQueryOption` is any function on the struct,
and an option that assigns to `Field` and `Value` decides what the fragment
holds. -/
theorem option_overwrites_field_value :
    PrefixQuery (str "username") (str "jo")
        [PrefixQueryOption.func
          (fun params => some { params with Field := str "email", Value := str "x" })]
      = some (QueryResult.mk (Query.PrefixQueryS
          { Field := str "email", Value := str "x", Rewrite := [], CaseInsensitive := false })
          none) ∧
    str "email" ≠ str "username" ∧ str "x" ≠ str "jo" :=
  ⟨rfl, by decide, by decide⟩

/-- C9, amended. For every field, value and list of options each of which
leaves `Field` and `Value` of the struct it is applied to unchanged, the
fragment `PrefixQuery` returns has `Field` equal to `field` and `Value` equal
to `value`; and when each option returns, `PrefixQuery` returns such a
fragment. -/
theorem field_value_kept (field value : Bytes) (opts : List PrefixQueryOption)
    (h : ∀ opt ∈ opts, ∀ d d' : PrefixQueryS, opt.call d = some d' →
      d'.Field = d.Field ∧ d'.Value = d.Value) :
    (∀ res : QueryResult, PrefixQuery field value opts = some res →
      ∃ frag : PrefixQueryS,
        res = QueryResult.mk (Query.PrefixQueryS frag) none ∧
        frag.Field = field ∧ frag.Value = value) ∧
    ((∀ opt ∈ opts, ∀ d : PrefixQueryS, ∃ d', opt.call d = some d') →
      ∃ frag : PrefixQueryS,
        PrefixQuery field value opts = some (QueryResult.mk (Query.PrefixQueryS frag) none) ∧
        frag.Field = field ∧ frag.Value = value) := by
  have key : ∀ res : QueryResult, PrefixQuery field value opts = some res →
      ∃ frag : PrefixQueryS,
        res = QueryResult.mk (Query.PrefixQueryS frag) none ∧
        frag.Field = field ∧ frag.Value = value := by
    intro res hres
    obtain ⟨frag, hfrag, rfl⟩ := prefixQuery_result field value opts res hres
    exact ⟨frag, rfl,
      rangeOpts_preserves PrefixQueryS.Field opts (fun o ho d d' hc => (h o ho d d' hc).1)
        _ _ hfrag,
      rangeOpts_preserves PrefixQueryS.Value opts (fun o ho d d' hc => (h o ho d d' hc).2)
        _ _ hfrag⟩
  refine ⟨key, ?_⟩
  intro hret
  obtain ⟨d', hd⟩ := rangeOpts_returns opts hret (PrefixQueryS.mk field value [] false)
  have hq : PrefixQuery field value opts
      = some (QueryResult.mk (Query.PrefixQueryS d') none) := by
    simp only [PrefixQuery, hd]
  obtain ⟨frag, hfrag, hF, hV⟩ := key _ hq
  exact ⟨frag, by rw [hq, hfrag], hF, hV⟩

/-- Witness for C9, amended: a call with the two standard options. -/
theorem field_value_kept_witness :
    (∀ opt ∈ [WithRewrite TopTermsN, WithCaseInsensitive true], ∀ d d' : PrefixQueryS,
      opt.call d = some d' → d'.Field = d.Field ∧ d'.Value = d.Value) ∧
    ((∀ res : QueryResult,
      PrefixQuery (str "username") (str "jo")
        [WithRewrite TopTermsN, WithCaseInsensitive true] = some res →
      ∃ frag : PrefixQueryS,
        res = QueryResult.mk (Query.PrefixQueryS frag) none ∧
        frag.Field = str "username" ∧ frag.Value = str "jo") ∧
    ((∀ opt ∈ [WithRewrite TopTermsN, WithCaseInsensitive true], ∀ d : PrefixQueryS,
        ∃ d', opt.call d = some d') →
      ∃ frag : PrefixQueryS,
        PrefixQuery (str "username") (str "jo")
          [WithRewrite TopTermsN, WithCaseInsensitive true]
            = some (QueryResult.mk (Query.PrefixQueryS frag) none) ∧
        frag.Field = str "username" ∧ frag.Value = str "jo")) :=
  have h : ∀ opt ∈ [WithRewrite TopTermsN, WithCaseInsensitive true], ∀ d d' : PrefixQueryS,
      opt.call d = some d' → d'.Field = d.Field ∧ d'.Value = d.Value := by
    intro opt hopt d d' hc
    simp only [List.mem_cons, List.mem_singleton, List.not_mem_nil, or_false] at hopt
    rcases hopt with rfl | rfl <;>
      (simp only [WithRewrite, WithCaseInsensitive, PrefixQueryOption.call,
        Option.some.injEq] at hc
       subst hc
       exact ⟨rfl, rfl⟩)
  ⟨h, field_value_kept (str "username") (str "jo") _ h⟩

/-- The `rewrite` member of the innermost object of a fragment's document:
the fragment's `Rewrite` when that is not empty, and absent otherwise. -/
theorem innerRewrite?_marshalArg (pq : PrefixQueryS) (doc : JSON)
    (h : toDocument pq.marshalArg = .ok doc) :
    innerRewrite? doc pq.Field
      = if pq.Rewrite = [] then none else some (JSON.string pq.Rewrite) := by
  rw [toDocument_marshalArg] at h
  injection h with h
  subst h
  have h1 : (str "value" == str "rewrite") = false := by decide
  have h2 : (str "case_insensitive" == str "rewrite") = false := by decide
  by_cases hr : pq.Rewrite = [] <;> by_cases hc : pq.CaseInsensitive = true <;>
    simp [innerRewrite?, JSON.get?, hr, hc, h1, h2]

/-- C10, as stated, fails: `WithRewrite` takes any string, and the string
goes into the `rewrite` member as it is. -/
theorem rewrite_outside_modes :
    PrefixQuery (str "username") (str "jo") [WithRewrite (str "fastest")]
      = some (QueryResult.mk (Query.PrefixQueryS
          { Field := str "username", Value := str "jo", Rewrite := str "fastest",
            CaseInsensitive := false }) none) ∧
    toDocument (PrefixQueryS.marshalArg
        { Field := str "username", Value := str "jo", Rewrite := str "fastest",
          CaseInsensitive := false })
      = .ok (.object [(str "prefix", .object [(str "username", .object
          [(str "value", .string (str "jo")), (str "rewrite", .string (str "fastest"))])])]) ∧
    innerRewrite? (.object [(str "prefix", .object [(str "username", .object
          [(str "value", .string (str "jo")), (str "rewrite", .string (str "fastest"))])])])
        (str "username") = some (.string (str "fastest")) ∧
    str "fastest" ∉ rewriteModes := by
  have hd := toDocument_marshalArg
    { Field := str "username", Value := str "jo", Rewrite := str "fastest",
      CaseInsensitive := false }
  have hne : str "fastest" ≠ [] := by decide
  simp only [hne, if_false, Bool.false_eq_true, List.append_nil, List.singleton_append] at hd
  refine ⟨rfl, hd, ?_, by decide⟩
  have h := innerRewrite?_marshalArg _ _ hd
  simpa only [hne, if_false] using h

/-- C10, amended. For every fragment built by `PrefixQuery` with a list of
`WithRewrite` and `WithCaseInsensitive` modifiers in which the last
`WithRewrite`, if there is one, is given the empty string or one of the six
enumerated modes, if the innermost object of the serialization has a `rewrite`
member then its value is one of the six enumerated modes. -/
theorem rewrite_member_enumerated (field value : Bytes) (ms : List StdModifier)
    (h : lastRewrite ms = [] ∨ lastRewrite ms ∈ rewriteModes) :
    ∃ (frag : PrefixQueryS) (doc : JSON),
      PrefixQuery field value (ms.map StdModifier.option)
        = some (QueryResult.mk (Query.PrefixQueryS frag) none) ∧
      toDocument frag.marshalArg = .ok doc ∧
      frag.MarshalJSON = .ok doc.render ∧
      ∀ j : JSON, innerRewrite? doc field = some j →
        ∃ r ∈ rewriteModes, j = JSON.string r := by
  refine ⟨PrefixQueryS.mk field value (lastRewrite ms) (lastCaseInsensitive ms), _,
    prefixQuery_stdModifiers field value ms, toDocument_marshalArg _,
    marshalJSON_of_document _ _ (toDocument_marshalArg _), ?_⟩
  intro j hj
  have key := innerRewrite?_marshalArg _ _ (toDocument_marshalArg
    { Field := field, Value := value, Rewrite := lastRewrite ms,
      CaseInsensitive := lastCaseInsensitive ms })
  simp only at key
  rw [key] at hj
  by_cases h0 : lastRewrite ms = []
  · simp [h0] at hj
  · simp only [h0, if_false, Option.some.injEq] at hj
    exact ⟨lastRewrite ms, h.resolve_left h0, hj.symm⟩

/-- Witness for C10, amended: an unknown mode overridden by `TopTermsN`. -/
theorem rewrite_member_enumerated_witness :
    (lastRewrite [.withRewrite (str "fastest"), .withCaseInsensitive true,
        .withRewrite TopTermsN] = [] ∨
      lastRewrite [.withRewrite (str "fastest"), .withCaseInsensitive true,
        .withRewrite TopTermsN] ∈ rewriteModes) ∧
    ∃ (frag : PrefixQueryS) (doc : JSON),
      PrefixQuery (str "username") (str "jo")
        ([StdModifier.withRewrite (str "fastest"), .withCaseInsensitive true,
          .withRewrite TopTermsN].map StdModifier.option)
        = some (QueryResult.mk (Query.PrefixQueryS frag) none) ∧
      toDocument frag.marshalArg = .ok doc ∧
      frag.MarshalJSON = .ok doc.render ∧
      ∀ j : JSON, innerRewrite? doc (str "username") = some j →
        ∃ r ∈ rewriteModes, j = JSON.string r :=
  ⟨by decide, rewrite_member_enumerated (str "username") (str "jo") _ (by decide)⟩

/-! ### Serialization loses nothing on well-formed strings -/

open utf8

/-- Two fragments of well-formed strings with the same serialization are the
same fragment. -/
theorem marshalJSON_inj_of_valid (p q : PrefixQueryS)
    (hpF : ValidString p.Field = true) (hpV : ValidString p.Value = true)
    (hpR : ValidString p.Rewrite = true) (hqF : ValidString q.Field = true)
    (hqV : ValidString q.Value = true) (hqR : ValidString q.Rewrite = true)
    (h : p.MarshalJSON = q.MarshalJSON) : p = q := by
  rw [marshalJSON_bytes, marshalJSON_bytes] at h
  injection h with h
  have h1 := List.append_cancel_left h
  obtain ⟨hF, h2⟩ := appendString_inj _ _ _ _ hpF hqF h1
  have h3 := List.append_cancel_left h2
  obtain ⟨hV, h4⟩ := appendString_inj _ _ _ _ hpV hqV h3
  have a3 : str "\x7d\x7d\x7d" = [0x7D, 0x7D, 0x7D] := by decide
  have a4 : str ",\"rewrite\":"
      = [0x2C, 0x22, 0x72, 0x65, 0x77, 0x72, 0x69, 0x74, 0x65, 0x22, 0x3A] := by decide
  have a5 : str ",\"case_insensitive\":true"
      = 0x2C :: 0x22 :: 0x63 :: (str "ase_insensitive\":true") := by decide
  rcases p with ⟨pf, pv, pr, pc⟩
  rcases q with ⟨qf, qv, qr, qc⟩
  simp only at hF hV h4 hpR hqR
  subst hF hV
  have key : pr = qr ∧ pc = qc := by
    by_cases hp : pr = [] <;> by_cases hq : qr = []
    · subst hp hq
      cases pc <;> cases qc <;> simp [a3, a5] at h4 ⊢
    · subst hp
      exfalso
      cases pc <;> simp [hq, a3, a4, a5] at h4
    · subst hq
      exfalso
      cases qc <;> simp [hp, a3, a4, a5] at h4
    · simp only [hp, hq, if_false, List.append_assoc] at h4
      have h5 := List.append_cancel_left h4
      obtain ⟨hR, h6⟩ := appendString_inj _ _ _ _ hpR hqR h5
      refine ⟨hR, ?_⟩
      cases pc <;> cases qc <;> simp [a3, a5] at h6 ⊢
  rw [key.1, key.2]

/-- Ill-formed strings can collide: every invalid byte is written as the
same replacement escape. -/
theorem marshalJSON_collision_of_invalid :
    ValidString [0xFF] = false ∧ ValidString [0xFE] = false ∧
    (PrefixQueryS.mk [0xFF] [] [] false).MarshalJSON
      = (PrefixQueryS.mk [0xFE] [] [] false).MarshalJSON := by
  decide

/-! ### The label, the order of the options, and what they touch -/

/-- C11. For every fragment, whatever its field, value, rewrite mode and
case-insensitivity flag, `QueryInfo` returns the fixed string `Prefix query`,
the twelve bytes written out here; so any two fragments have the same label. -/
theorem queryInfo_fixed (pq : PrefixQueryS) :
    pq.QueryInfo = str "Prefix query" ∧
    pq.QueryInfo
      = [0x50, 0x72, 0x65, 0x66, 0x69, 0x78, 0x20, 0x71, 0x75, 0x65, 0x72, 0x79] ∧
    (∀ other : PrefixQueryS, other.QueryInfo = pq.QueryInfo) :=
  have h : str "Prefix query"
      = [0x50, 0x72, 0x65, 0x66, 0x69, 0x78, 0x20, 0x71, 0x75, 0x65, 0x72, 0x79] := by decide
  ⟨rfl, h, fun _ => rfl⟩

/-- The loop over the options is the left fold of the calls of the options,
which stops at the first call that does not return. -/
theorem rangeOpts_eq_foldlM (opts : List PrefixQueryOption) (d : PrefixQueryS) :
    rangeOpts opts d
      = opts.foldlM (fun (draft : PrefixQueryS) (opt : PrefixQueryOption) => opt.call draft)
          d := by
  induction opts generalizing d with
  | nil => rfl
  | cons opt rest ih =>
    rw [rangeOpts, List.foldlM_cons]
    cases h : opt.call d with
    | none => rfl
    | some d1 => exact ih d1

/-- The loop over options that all return is the left fold of their updates. -/
theorem rangeOpts_returning (fs : List (PrefixQueryS → PrefixQueryS)) (d : PrefixQueryS) :
    rangeOpts (fs.map PrefixQueryOption.returning) d
      = some (fs.foldl (fun draft f => f draft) d) := by
  induction fs generalizing d with
  | nil => rfl
  | cons f rest ih =>
    simp only [List.map_cons, rangeOpts, PrefixQueryOption.returning, PrefixQueryOption.call,
      List.foldl_cons]
    exact ih (f d)

/-- The loop over a list with one more option at the end. -/
theorem rangeOpts_append (opts : List PrefixQueryOption) (opt : PrefixQueryOption)
    (d frag : PrefixQueryS) (h : rangeOpts opts d = some frag) :
    rangeOpts (opts ++ [opt]) d = opt.call frag := by
  induction opts generalizing d with
  | nil =>
    simp only [rangeOpts, Option.some.injEq] at h
    subst h
    simp only [List.nil_append, rangeOpts]
    cases opt.call d <;> rfl
  | cons o rest ih =>
    simp only [rangeOpts] at h
    cases h1 : o.call d with
    | none => simp [h1] at h
    | some d1 =>
      simp only [h1] at h
      simp only [List.cons_append, rangeOpts, h1]
      exact ih d1 h

/-- C12. For every field, value and list of options, what `PrefixQuery`
returns is the left fold of the options over the initial draft with `Field`
and `Value` set, `Rewrite` empty and `CaseInsensitive` false: each option is
called once, in call order, on the draft the options before it left, and the
fold ends where a call does not return. For options that return, the
fragment is the plain left fold of their updates; with no option the fragment
is the draft; and a further option at the end is called on the fragment built
from the options before it. -/
theorem prefixQuery_is_left_fold (field value : Bytes) (opts : List PrefixQueryOption) :
    PrefixQuery field value opts
      = (opts.foldlM
          (fun (draft : PrefixQueryS) (opt : PrefixQueryOption) => opt.call draft)
          (PrefixQueryS.mk field value [] false)).map
          (fun frag => QueryResult.mk (Query.PrefixQueryS frag) none) ∧
    (∀ fs : List (PrefixQueryS → PrefixQueryS),
      PrefixQuery field value (fs.map PrefixQueryOption.returning)
        = some (QueryResult.mk (Query.PrefixQueryS (fs.foldl (fun draft f => f draft)
            { Field := field, Value := value, Rewrite := [], CaseInsensitive := false }))
            none)) ∧
    PrefixQuery field value []
      = some (QueryResult.mk (Query.PrefixQueryS
          { Field := field, Value := value, Rewrite := [], CaseInsensitive := false }) none) ∧
    (∀ (opt : PrefixQueryOption) (frag : PrefixQueryS),
      PrefixQuery field value opts = some (QueryResult.mk (Query.PrefixQueryS frag) none) →
      PrefixQuery field value (opts ++ [opt])
        = (opt.call frag).map (fun frag1 => QueryResult.mk (Query.PrefixQueryS frag1) none)) := by
  refine ⟨?_, ?_, rfl, ?_⟩
  · simp only [PrefixQuery, rangeOpts_eq_foldlM]
    cases opts.foldlM
        (fun (draft : PrefixQueryS) (opt : PrefixQueryOption) => opt.call draft)
        (PrefixQueryS.mk field value [] false) <;> rfl
  · intro fs
    simp only [PrefixQuery, rangeOpts_returning]
  · intro opt frag h
    obtain ⟨frag1, h1, h2⟩ := prefixQuery_result field value opts _ h
    simp only [QueryResult.mk.injEq, Query.PrefixQueryS.injEq, and_true] at h2
    subst h2
    simp only [PrefixQuery, rangeOpts_append opts opt _ _ h1]
    cases opt.call frag <;> rfl

/-- C13. Each standard modifier changes one attribute of the draft: the call
of `WithRewrite(r)` returns with `Rewrite` set to `r` and `Field`, `Value` and
`CaseInsensitive` as they were; the call of `WithCaseInsensitive(b)` returns
with `CaseInsensitive` set to `b` and `Field`, `Value` and `Rewrite` as they
were. -/
theorem modifier_frame (d : PrefixQueryS) (r : Rewrite) (b : Bool) :
    (∃ d1 : PrefixQueryS, (WithRewrite r).call d = some d1 ∧
      d1.Rewrite = r ∧ d1.Field = d.Field ∧ d1.Value = d.Value ∧
      d1.CaseInsensitive = d.CaseInsensitive) ∧
    (∃ d2 : PrefixQueryS, (WithCaseInsensitive b).call d = some d2 ∧
      d2.CaseInsensitive = b ∧ d2.Field = d.Field ∧ d2.Value = d.Value ∧
      d2.Rewrite = d.Rewrite) :=
  ⟨⟨_, rfl, rfl, rfl, rfl, rfl⟩, ⟨_, rfl, rfl, rfl, rfl, rfl⟩⟩

/-- C14. `WithRewrite(r)` and `WithCaseInsensitive(b)` commute: in either
order `PrefixQuery` returns the same result, holding the fragment with
`Rewrite` `r` and `CaseInsensitive` `b`, and so the same serialization. -/
theorem modifiers_commute (field value : Bytes) (r : Rewrite) (b : Bool) :
    PrefixQuery field value [WithRewrite r, WithCaseInsensitive b]
      = PrefixQuery field value [WithCaseInsensitive b, WithRewrite r] ∧
    ∃ frag1 frag2 : PrefixQueryS,
      PrefixQuery field value [WithRewrite r, WithCaseInsensitive b]
        = some (QueryResult.mk (Query.PrefixQueryS frag1) none) ∧
      PrefixQuery field value [WithCaseInsensitive b, WithRewrite r]
        = some (QueryResult.mk (Query.PrefixQueryS frag2) none) ∧
      frag1 = frag2 ∧
      frag1 = { Field := field, Value := value, Rewrite := r, CaseInsensitive := b } ∧
      frag1.MarshalJSON = frag2.MarshalJSON :=
  ⟨rfl, _, _, rfl, rfl, rfl, rfl, rfl⟩

/-- C15. Serialization is injective on fragments of well-formed strings: if
`Field`, `Value` and `Rewrite` of two fragments are valid UTF-8 and
`MarshalJSON` returns the same for both, then the two fragments have the same
`Field`, `Value`, `Rewrite` and `CaseInsensitive`. -/
theorem marshalJSON_injective (p q : PrefixQueryS)
    (hpF : ValidString p.Field = true) (hpV : ValidString p.Value = true)
    (hpR : ValidString p.Rewrite = true) (hqF : ValidString q.Field = true)
    (hqV : ValidString q.Value = true) (hqR : ValidString q.Rewrite = true)
    (h : p.MarshalJSON = q.MarshalJSON) :
    p.Field = q.Field ∧ p.Value = q.Value ∧ p.Rewrite = q.Rewrite ∧
      p.CaseInsensitive = q.CaseInsensitive := by
  have hpq := marshalJSON_inj_of_valid p q hpF hpV hpR hqF hqV hqR h
  subst hpq
  exact ⟨rfl, rfl, rfl, rfl⟩

/-- Witness for C15: a fragment with a two-byte character in its value,
written down directly and built by the loop over the two standard options. -/
theorem marshalJSON_injective_witness :
    (ValidString (str "username") = true ∧ ValidString (str "josé") = true ∧
      ValidString TopTermsN = true ∧
      (PrefixQueryS.mk (str "username") (str "josé") TopTermsN true).MarshalJSON
        = ((rangeOpts [WithRewrite TopTermsN, WithCaseInsensitive true]
            (PrefixQueryS.mk (str "username") (str "josé") [] false)).getD
            (PrefixQueryS.mk [] [] [] false)).MarshalJSON) ∧
    ((PrefixQueryS.mk (str "username") (str "josé") TopTermsN true).Field
        = ((rangeOpts [WithRewrite TopTermsN, WithCaseInsensitive true]
            (PrefixQueryS.mk (str "username") (str "josé") [] false)).getD
            (PrefixQueryS.mk [] [] [] false)).Field ∧
      (PrefixQueryS.mk (str "username") (str "josé") TopTermsN true).Value
        = ((rangeOpts [WithRewrite TopTermsN, WithCaseInsensitive true]
            (PrefixQueryS.mk (str "username") (str "josé") [] false)).getD
            (PrefixQueryS.mk [] [] [] false)).Value ∧
      (PrefixQueryS.mk (str "username") (str "josé") TopTermsN true).Rewrite
        = ((rangeOpts [WithRewrite TopTermsN, WithCaseInsensitive true]
            (PrefixQueryS.mk (str "username") (str "josé") [] false)).getD
            (PrefixQueryS.mk [] [] [] false)).Rewrite ∧
      (PrefixQueryS.mk (str "username") (str "josé") TopTermsN true).CaseInsensitive
        = ((rangeOpts [WithRewrite TopTermsN, WithCaseInsensitive true]
            (PrefixQueryS.mk (str "username") (str "josé") [] false)).getD
            (PrefixQueryS.mk [] [] [] false)).CaseInsensitive) :=
  ⟨⟨by decide, by decide, by decide, by decide⟩,
    marshalJSON_injective _ _ (by decide) (by decide) (by decide) (by decide) (by decide)
      (by decide) (by decide)⟩

end prefixquery
